import Mathlib

/-
Shallow embedding of the ledger / allocation engine of
src/trip_expense_app.py (a Streamlit script).

Modelling conventions:
* Python floats holding money are modelled as rationals (ℚ); `round(x, 2)`
  is modelled as decimal rounding to 2 places with ties-to-even (`rnd2`),
  the rounding policy of Python's `round`.
* Python `dict` / `defaultdict(float)` values keyed by member names are
  modelled as association lists `List (String × ℚ)` with unique keys.
  `d[k] += v` (which vivifies a missing key) is `alAdd`, `d.get(k, 0.0)`
  is `alGet`, `k in d` is `alMem`, `del d[k]` is `alErase`.
* The nested maps `trip['advances']` (treasurer → contributor → amount)
  and the expense handler's `share_source_map` are association lists of
  association lists, with `mget` / `mmem` / `madd` / `mset` / `mappendSrcs`.
* `trip['summary']` is a `defaultdict` producing a fresh all-zero record
  per member; it is modelled as a total function `String → MemberSummary`
  whose default value is the all-zero record.
* Streamlit UI plumbing (widgets, messages, charts, exports) is out of
  scope; each button handler becomes a function on the `Trip` state.  The
  `st.success` / `st.warning` feedback of the add-member and add-advance
  handlers is modelled by the `Outcome` tag (message text elided).
  Settlement timestamps (wall-clock) are elided from `SettlementRec`.
* The transaction log strings are modelled as tagged `LogEntry` values
  carrying exactly the data interpolated into the Python f-strings.
-/

namespace TripApp

/-- Association list lookup with default 0, the model of `d.get(k, 0.0)`
and of reading a `defaultdict(float)` entry. -/
def alGet : List (String × ℚ) → String → ℚ
  | [], _ => 0
  | p :: ps, k => if p.1 = k then p.2 else alGet ps k

/-- Key membership, the model of `k in d`. -/
def alMem : List (String × ℚ) → String → Bool
  | [], _ => false
  | p :: ps, k => p.1 = k || alMem ps k

/-- The model of `d[k] += v` on a `defaultdict(float)`: update the entry in
place if the key is present, otherwise append a new entry (Python dicts
keep insertion order). -/
def alAdd : List (String × ℚ) → String → ℚ → List (String × ℚ)
  | [], k, v => [(k, v)]
  | p :: ps, k, v => if p.1 = k then (p.1, p.2 + v) :: ps else p :: alAdd ps k v

/-- The model of `del d[k]`. -/
def alErase : List (String × ℚ) → String → List (String × ℚ)
  | [], _ => []
  | p :: ps, k => if p.1 = k then ps else p :: alErase ps k

/-- The model of `sum(v for k, v in d.items() if k != e)` used by the
summary table (lines 256-257 of the source). -/
def sumExcl : List (String × ℚ) → String → ℚ
  | [], _ => 0
  | p :: ps, e => (if p.1 = e then 0 else p.2) + sumExcl ps e

/-- Keys of an association list. -/
def alKeys (l : List (String × ℚ)) : List String := l.map Prod.fst

/-- Nested map lookup (`trip['advances'][k]`): default is the empty map. -/
def mget : List (String × List (String × ℚ)) → String → List (String × ℚ)
  | [], _ => []
  | e :: es, k => if e.1 = k then e.2 else mget es k

/-- Nested map key membership (`payer in trip['advances']`). -/
def mmem : List (String × List (String × ℚ)) → String → Bool
  | [], _ => false
  | e :: es, k => e.1 = k || mmem es k

/-- The model of `trip['advances'][dst][src] += amt` (line 84): both the
outer and the inner `defaultdict` vivify missing keys. -/
def madd : List (String × List (String × ℚ)) → String → String → ℚ →
    List (String × List (String × ℚ))
  | [], dst, src, amt => [(dst, alAdd [] src amt)]
  | e :: es, dst, src, amt =>
    if e.1 = dst then (e.1, alAdd e.2 src amt) :: es else e :: madd es dst src amt

/-- Replace the whole inner map stored under a key (the pool rewrite of
lines 159-160). -/
def mset : List (String × List (String × ℚ)) → String →
    List (String × ℚ) → List (String × List (String × ℚ))
  | [], k, inner => [(k, inner)]
  | e :: es, k, inner => if e.1 = k then (k, inner) :: es else e :: mset es k inner

/-- The model of `share_source_map[person].append(...)` over a whole
per-person batch: extend an existing entry's list, or create the entry
(`defaultdict(list)` vivification, insertion order at the end). -/
def mappendSrcs : List (String × List (String × ℚ)) → String →
    List (String × ℚ) → List (String × List (String × ℚ))
  | [], k, srcs => [(k, srcs)]
  | e :: es, k, srcs => if e.1 = k then (e.1, e.2 ++ srcs) :: es else e :: mappendSrcs es k srcs

/-- Round a rational to the nearest integer with ties-to-even, the rounding
rule of Python's builtin `round`. -/
def roundHalfEven (x : ℚ) : ℤ :=
  let f := ⌊x⌋
  if x - f < 1 / 2 then f
  else if 1 / 2 < x - f then f + 1
  else if f % 2 = 0 then f else f + 1

/-- The model of `round(x, 2)`. -/
def rnd2 (x : ℚ) : ℚ := (roundHalfEven (100 * x) : ℚ) / 100

/-- One member's row of `trip['summary']` (source lines 30-40); every field
defaults to zero / empty. -/
structure MemberSummary where
  advance_given : ℚ := 0
  advance_received : ℚ := 0
  advance_used_by_others : ℚ := 0
  advance_used_from_others : ℚ := 0
  advance_balance : ℚ := 0
  own_paid : ℚ := 0
  share : ℚ := 0
  owes_to : List (String × ℚ) := []
  gets_from : List (String × ℚ) := []

/-- The all-zero default record produced by the summary `defaultdict`. -/
def emptySummary : MemberSummary := {}

/-- An entry of `trip['expenses']` (lines 181-186). -/
structure ExpenseRec where
  payer : String
  amount : ℚ
  shared_by : List String
  reason : String
deriving DecidableEq

/-- An entry of `trip['settlements']` (lines 233-239); the wall-clock
timestamp is elided. -/
structure SettlementRec where
  src : String
  dst : String
  amount : ℚ
  note : String
deriving DecidableEq

/-- A `trip['transactions']` entry: the tagged data interpolated into the
Python f-strings (lines 90, 187, 242). -/
inductive LogEntry where
  | advance (src dst : String) (amt : ℚ)
  | expense (payer : String) (amt : ℚ) (shared : List String) (reason : String)
  | settlement (src dst : String) (amt : ℚ) (note : String)
deriving DecidableEq

/-- The user-visible feedback of a button handler (`st.success` /
`st.warning`, message text elided); `silent` means the handler body did not
run at all, so nothing was shown. -/
inductive Outcome where
  | success
  | warnSelfAdvance
  | silent
deriving DecidableEq

/-- One trip's state (source lines 23-41). -/
structure Trip where
  members : List String
  advances : List (String × List (String × ℚ))
  expenses : List ExpenseRec
  transactions : List LogEntry
  settlements : List SettlementRec
  summary : String → MemberSummary

/-- The fresh trip created at session start. -/
def initTrip : Trip :=
  { members := [], advances := [], expenses := [], transactions := [],
    settlements := [], summary := fun _ => emptySummary }

/-- Pointwise update of the summary map at one member. -/
def updS (f : String → MemberSummary) (k : String)
    (g : MemberSummary → MemberSummary) : String → MemberSummary :=
  fun x => if x = k then g (f x) else f x

/-- The paired edge update `owes_to[p][c] += v` mirrored by
`gets_from[c][p] += v`, the shape of source lines 149-150, 175-176 and
223-224. -/
def addEdge (f : String → MemberSummary) (p c : String) (v : ℚ) :
    String → MemberSummary :=
  updS (updS f p fun s => { s with owes_to := alAdd s.owes_to c v })
    c (fun s => { s with gets_from := alAdd s.gets_from p v })

/-- The paired edge deletion of source lines 227-230 when both sides
fire. -/
def eraseEdge (f : String → MemberSummary) (p c : String) :
    String → MemberSummary :=
  updS (updS f p fun s => { s with owes_to := alErase s.owes_to c })
    c (fun s => { s with gets_from := alErase s.gets_from p })

/-- The Add Member button (lines 55-59): the guard silently ignores an
empty name and a name already present. -/
def addMemberClick (t : Trip) (name : String) : Trip × Outcome :=
  if name ≠ "" ∧ name ∉ t.members then
    ({ t with members := t.members ++ [name] }, Outcome.success)
  else (t, Outcome.silent)

/-- The Add Advance button (lines 80-96): the only validation is
`adv_from != adv_to`; there is no amount check in the handler (the number
input widget enforces `amount ≥ 0`). -/
def advanceClick (t : Trip) (src dst : String) (amt : ℚ) : Trip × Outcome :=
  if src ≠ dst then
    ({ t with
        advances := madd t.advances dst src amt,
        summary :=
          updS (updS t.summary src fun s =>
              { s with advance_given := s.advance_given + amt,
                       advance_balance := s.advance_balance + amt })
            dst (fun s => { s with advance_received := s.advance_received + amt }),
        transactions := t.transactions ++ [LogEntry.advance src dst amt] },
      Outcome.success)
  else (t, Outcome.warnSelfAdvance)

/-- One step of the contributor draw-down loop (lines 129-138): skip the
participant itself, skip when the share is covered or the contributor's
remaining advance is exhausted, otherwise draw `min(share_remaining,
advance_remaining[contributor])`.  State: (sources so far, share
remaining, advance_remaining). -/
def drawContribStep (person : String)
    (acc : List (String × ℚ) × ℚ × List (String × ℚ)) (c : String × ℚ) :
    List (String × ℚ) × ℚ × List (String × ℚ) :=
  let srcs := acc.1
  let r := acc.2.1
  let adv := acc.2.2
  if c.1 = person then acc
  else if r ≤ 0 ∨ alGet adv c.1 ≤ 0 then acc
  else
    let use := min r (alGet adv c.1)
    (srcs ++ [(c.1, use)], r - use, alAdd adv c.1 (-use))

/-- The per-participant allocation (lines 117-142): first the participant's
own advance (lines 121-126), then the other contributors in the
pre-sorted order (lines 128-138), then any remainder is attributed to the
payer (lines 140-142).  Returns the participant's source list and the
updated `advance_remaining`. -/
def drawForPerson (payer : String) (contribs : List (String × ℚ))
    (perHead : ℚ) (adv : List (String × ℚ)) (person : String) :
    List (String × ℚ) × List (String × ℚ) :=
  let step1 : List (String × ℚ) × ℚ × List (String × ℚ) :=
    if alMem adv person ∧ 0 < alGet adv person then
      let use := min perHead (alGet adv person)
      ([(person, use)], perHead - use, alAdd adv person (-use))
    else ([], perHead, adv)
  let step2 := contribs.foldl (drawContribStep person) step1
  if 0 < step2.2.1 then (step2.1 ++ [(payer, step2.2.1)], step2.2.2)
  else (step2.1, step2.2.2)

/-- One participant of the `for person in participants` loop building
`share_source_map` (lines 117-142).  A person that receives no source
entries never touches the map (`defaultdict(list)` is only vivified by an
actual append). -/
def buildStep (payer : String) (contribs : List (String × ℚ)) (perHead : ℚ)
    (acc : List (String × List (String × ℚ)) × List (String × ℚ))
    (person : String) :
    List (String × List (String × ℚ)) × List (String × ℚ) :=
  let res := drawForPerson payer contribs perHead acc.2 person
  (if res.1.isEmpty then acc.1 else mappendSrcs acc.1 person res.1, res.2)

/-- The whole `share_source_map` construction (lines 112-142), starting
from a copy of the payer's pool entry. -/
def buildSSM (payer : String) (contribs : List (String × ℚ)) (perHead : ℚ)
    (participants : List String) (adv0 : List (String × ℚ)) :
    List (String × List (String × ℚ)) × List (String × ℚ) :=
  participants.foldl (buildStep payer contribs perHead) ([], adv0)

/-- Flatten `share_source_map` into the (person, contributor, amount)
triples visited by the attribution double loop (lines 145-146). -/
def flattenSSM (ssm : List (String × List (String × ℚ))) :
    List (String × String × ℚ) :=
  ssm.flatMap fun e => e.2.map fun ca => (e.1, ca.1, ca.2)

/-- One attribution step (lines 146-157): skip non-positive and
self-sourced amounts; record the obligation pair; then either the
advance-usage bookkeeping (when the contributor has a pool entry with the
payer, line 152) or the payer's `own_paid` (line 156). -/
def attribOne (pool0 : List (String × ℚ)) (payer : String)
    (f : String → MemberSummary) (tr : String × String × ℚ) :
    String → MemberSummary :=
  let person := tr.1
  let contrib := tr.2.1
  let amt := tr.2.2
  if amt ≤ 0 ∨ person = contrib then f
  else
    let f2 := addEdge f person contrib amt
    if alMem pool0 contrib then
      updS
        (updS f2 person fun s =>
          { s with advance_used_from_others := s.advance_used_from_others + amt })
        contrib (fun s =>
          { s with advance_used_by_others := s.advance_used_by_others + amt,
                   advance_balance := s.advance_balance - amt })
    else if contrib = payer then
      updS f2 contrib (fun s => { s with own_paid := s.own_paid + amt })
    else f2

/-- Stable insertion of one item into a list sorted by descending amount:
a later item goes after every earlier item whose amount is at least as
large. -/
def insDesc (x : String × ℚ) : List (String × ℚ) → List (String × ℚ)
  | [] => [x]
  | y :: ys => if x.2 < y.2 then y :: insDesc x ys else x :: y :: ys

/-- The model of `sorted(advance_remaining.items(), key=lambda x: -x[1])`
(line 114): a stable sort by descending amount. -/
def sortByValDesc : List (String × ℚ) → List (String × ℚ)
  | [] => []
  | x :: xs => insDesc x (sortByValDesc xs)

/-- The advance-allocation branch of the expense handler
(lines 111-160). -/
def expenseAdv (t : Trip) (payer : String) (perHead : ℚ)
    (participants : List String) : Trip :=
  let pool0 := mget t.advances payer
  let contribs := sortByValDesc pool0
  let res := buildSSM payer contribs perHead participants pool0
  { t with
    summary := (flattenSSM res.1).foldl (attribOne pool0 payer) t.summary,
    advances := mset t.advances payer (pool0.map fun e => (e.1, alGet res.2 e.1)) }

/-- One participant of the no-advance branch loop (lines 168-176).  The
middle branch (lines 170-173) is kept exactly as written even though it is
unreachable in context (`payer in trip['advances']` is false in the else
branch); note Python's short-circuit `and` never vivifies
`trip['advances'][payer]` here. -/
def noAdvStep (adv : List (String × List (String × ℚ))) (payer : String)
    (eqShare : ℚ) (f : String → MemberSummary) (person : String) :
    String → MemberSummary :=
  if person = payer then f
  else if mmem adv payer ∧ alMem (mget adv payer) person then
    updS
      (updS f person fun s =>
        { s with advance_used_from_others := s.advance_used_from_others + eqShare,
                 advance_balance := s.advance_balance - eqShare })
      payer (fun s =>
        { s with advance_used_by_others := s.advance_used_by_others + eqShare })
  else addEdge f person payer eqShare

/-- The no-advance branch of the expense handler (lines 162-176): the
payer's `own_paid` grows by the whole rounded amount, then every other
participant owes the payer `round(amount / len(participants), 2)`. -/
def expenseNoAdv (t : Trip) (payer : String) (amount : ℚ)
    (participants : List String) : Trip :=
  let f1 := updS t.summary payer fun s => { s with own_paid := s.own_paid + rnd2 amount }
  let f2 :=
    if 0 < amount then
      participants.foldl
        (noAdvStep t.advances payer (rnd2 (amount / (participants.length : ℚ)))) f1
    else f1
  { t with summary := f2 }

/-- The share bookkeeping loop (lines 178-179). -/
def shareAll (f : String → MemberSummary) (perHead : ℚ)
    (participants : List String) : String → MemberSummary :=
  participants.foldl (fun g person => updS g person fun s => { s with share := s.share + perHead }) f

/-- The Add Expense form handler (lines 107-188): guard, per-head share,
one of the two allocation branches, the share loop, and the appends to the
expense list and the transaction log. -/
def expenseClick (t : Trip) (payer : String) (amount : ℚ)
    (participants : List String) (reason : String) : Trip :=
  if 0 < amount ∧ participants ≠ [] then
    let perHead := rnd2 (amount / (participants.length : ℚ))
    let t1 :=
      if mmem t.advances payer then expenseAdv t payer perHead participants
      else expenseNoAdv t payer amount participants
    { t1 with
      summary := shareAll t1.summary perHead participants,
      expenses := t1.expenses ++ [⟨payer, amount, participants, reason⟩],
      transactions := t1.transactions ++ [LogEntry.expense payer amount participants reason] }
  else t

/-- The Mark as Settled button handler (lines 218-242): the payment is
clamped to the outstanding amount (`pay_amt = min(settle_amt, owed_amt)`,
line 220), both graph edges are decremented, an edge that reaches ≤ 0 is
deleted, and a settlement record and a log entry are appended. -/
def settleClick (t : Trip) (src dst : String) (amt : ℚ) (note : String) : Trip :=
  let owed := alGet (t.summary src).owes_to dst
  let pay := min amt owed
  let f2 := addEdge t.summary src dst (-pay)
  let f3 :=
    if alGet (f2 src).owes_to dst ≤ 0 then
      updS f2 src (fun s => { s with owes_to := alErase s.owes_to dst })
    else f2
  let f4 :=
    if alGet (f3 dst).gets_from src ≤ 0 then
      updS f3 dst (fun s => { s with gets_from := alErase s.gets_from src })
    else f3
  { t with
    summary := f4,
    settlements := t.settlements ++ [⟨src, dst, pay, note⟩],
    transactions := t.transactions ++ [LogEntry.settlement src dst pay note] }

/-- One UI-equivalent action on the active trip. -/
inductive Op where
  | addMember (name : String)
  | advance (src dst : String) (amt : ℚ)
  | expense (payer : String) (amount : ℚ) (participants : List String) (reason : String)
  | settle (src dst : String) (amt : ℚ) (note : String)

/-- Apply one action, including the argument constraints the UI widgets
enforce before each handler can run: the select boxes only offer current
members (the settle receiver excludes the payer), the multiselect yields a
duplicate-free subset of the members, the advance amount input enforces
`0 ≤ amt`, the settlement input enforces `0 ≤ amt ≤ owed` and only exists
when `owed > 0` (lines 203, 210-215).  An action whose constraints fail
leaves the state unchanged. -/
def applyOp (t : Trip) (op : Op) : Trip :=
  match op with
  | Op.addMember name => (addMemberClick t name).1
  | Op.advance src dst amt =>
    if src ∈ t.members ∧ dst ∈ t.members ∧ 0 ≤ amt then
      (advanceClick t src dst amt).1
    else t
  | Op.expense payer amount participants reason =>
    if payer ∈ t.members ∧ (∀ p ∈ participants, p ∈ t.members) ∧ participants.Nodup then
      expenseClick t payer amount participants reason
    else t
  | Op.settle src dst amt note =>
    if src ∈ t.members ∧ dst ∈ t.members ∧ src ≠ dst ∧
        0 < alGet (t.summary src).owes_to dst ∧ 0 ≤ amt ∧
        amt ≤ alGet (t.summary src).owes_to dst then
      settleClick t src dst amt note
    else t

/-- Apply a sequence of actions starting from the fresh trip. -/
def applyOps (t : Trip) (ops : List Op) : Trip := ops.foldl applyOp t

/-- Net position of one member as computed by the summary table
(lines 256-270): gets-back minus owes, each excluding self-keyed
entries. -/
def netPos (f : String → MemberSummary) (m : String) : ℚ :=
  sumExcl (f m).gets_from m - sumExcl (f m).owes_to m

/-- Sum of all members' net positions. -/
def totalNet (t : Trip) : ℚ := (t.members.map (netPos t.summary)).sum

/-! Basic lemmas about the association-list operations. -/

/-! Basic lemmas about the association-list operations. -/

lemma alMem_iff (l : List (String × ℚ)) (k : String) :
    alMem l k = true ↔ k ∈ l.map Prod.fst := by
  induction l with
  | nil => simp [alMem]
  | cons p ps ih =>
    simp only [alMem, Bool.or_eq_true, decide_eq_true_eq, ih, List.map_cons,
      List.mem_cons]
    exact or_congr eq_comm Iff.rfl

lemma alGet_alAdd (l : List (String × ℚ)) (k : String) (v : ℚ) (x : String) :
    alGet (alAdd l k v) x = if x = k then alGet l k + v else alGet l x := by
  induction l with
  | nil =>
    by_cases h : x = k
    · subst h; simp [alAdd, alGet]
    · simp [alAdd, alGet, h, Ne.symm h]
  | cons p ps ih =>
    by_cases hpk : p.1 = k
    · subst hpk
      by_cases hx : x = p.1
      · subst hx; simp [alAdd, alGet]
      · simp [alAdd, alGet, hx, Ne.symm hx]
    · by_cases hpx : p.1 = x
      · subst hpx
        have hxk : ¬ p.1 = k := hpk
        simp [alAdd, alGet, hpk, hxk]
      · simp [alAdd, alGet, hpk, hpx, ih]

lemma keys_alAdd_mem (l : List (String × ℚ)) (k : String) (v : ℚ)
    (h : alMem l k = true) : (alAdd l k v).map Prod.fst = l.map Prod.fst := by
  induction l with
  | nil => simp [alMem] at h
  | cons p ps ih =>
    by_cases hpk : p.1 = k
    · simp [alAdd, hpk]
    · have : alMem ps k = true := by simpa [alMem, hpk] using h
      simp [alAdd, hpk, ih this]

lemma keys_alAdd_not_mem (l : List (String × ℚ)) (k : String) (v : ℚ)
    (h : alMem l k = false) : (alAdd l k v).map Prod.fst = l.map Prod.fst ++ [k] := by
  induction l with
  | nil => simp [alAdd]
  | cons p ps ih =>
    have hpk : ¬ p.1 = k := by
      intro hc; simp [alMem, hc] at h
    have hps : alMem ps k = false := by
      simpa [alMem, hpk] using h
    simp [alAdd, hpk, ih hps]

lemma alMem_alAdd (l : List (String × ℚ)) (k : String) (v : ℚ) (x : String) :
    alMem (alAdd l k v) x = true ↔ (alMem l x = true ∨ x = k) := by
  cases hm : alMem l k with
  | true =>
    rw [alMem_iff, keys_alAdd_mem l k v hm, ← alMem_iff]
    constructor
    · exact Or.inl
    · rintro (h | h)
      · exact h
      · subst h; exact hm
  | false =>
    rw [alMem_iff, keys_alAdd_not_mem l k v hm, List.mem_append, ← alMem_iff]
    simp

lemma mem_alAdd (l : List (String × ℚ)) (k : String) (v : ℚ) :
    ∀ e ∈ alAdd l k v, e ∈ l ∨ e = (k, alGet l k + v) := by
  induction l with
  | nil => intro e he; simp [alAdd] at he; simp [alGet, he]
  | cons p ps ih =>
    intro e he
    by_cases hpk : p.1 = k
    · subst hpk
      simp [alAdd] at he
      rcases he with he | he
      · right; rw [he]; simp [alGet]
      · left; simp [he]
    · simp [alAdd, hpk] at he
      rcases he with he | he
      · left; simp [he]
      · rcases ih e he with h | h
        · left; simp [h]
        · right; simpa [alGet, hpk] using h

lemma keysNodup_alAdd (l : List (String × ℚ)) (k : String) (v : ℚ)
    (hnd : (l.map Prod.fst).Nodup) : ((alAdd l k v).map Prod.fst).Nodup := by
  cases hm : alMem l k with
  | true => rw [keys_alAdd_mem l k v hm]; exact hnd
  | false =>
    rw [keys_alAdd_not_mem l k v hm]
    have hk : k ∉ l.map Prod.fst := fun hc => by
      rw [(alMem_iff l k).mpr hc] at hm; cases hm
    simp [List.nodup_append, hnd, hk]

lemma mem_alErase (l : List (String × ℚ)) (k : String) :
    ∀ e ∈ alErase l k, e ∈ l := by
  induction l with
  | nil => intro e he; simp [alErase] at he
  | cons p ps ih =>
    intro e he
    by_cases hpk : p.1 = k
    · simp [alErase, hpk] at he; exact List.mem_cons_of_mem _ he
    · simp [alErase, hpk] at he
      rcases he with he | he
      · simp [he]
      · exact List.mem_cons_of_mem _ (ih e he)

lemma alGet_alErase_ne (l : List (String × ℚ)) (k x : String) (hx : x ≠ k) :
    alGet (alErase l k) x = alGet l x := by
  induction l with
  | nil => simp [alErase]
  | cons p ps ih =>
    by_cases hpk : p.1 = k
    · subst hpk
      have hpx : ¬ p.1 = x := fun h => hx h.symm
      simp [alErase, alGet, hpx]
    · by_cases hpx : p.1 = x
      · subst hpx
        simp [alErase, alGet, hpk]
      · simp [alErase, alGet, hpk, hpx, ih]

lemma alMem_alErase_ne (l : List (String × ℚ)) (k x : String) (hx : x ≠ k) :
    alMem (alErase l k) x = alMem l x := by
  induction l with
  | nil => simp [alErase]
  | cons p ps ih =>
    by_cases hpk : p.1 = k
    · subst hpk
      have hpx : ¬ p.1 = x := fun h => hx h.symm
      simp [alErase, alMem, hpx]
    · by_cases hpx : p.1 = x
      · subst hpx
        simp [alErase, alMem, hpk]
      · simp [alErase, alMem, hpk, hpx, ih]

lemma keys_alErase_sub (l : List (String × ℚ)) (k : String) :
    ∀ x ∈ (alErase l k).map Prod.fst, x ∈ l.map Prod.fst := by
  intro x hx
  rcases List.mem_map.mp hx with ⟨e, he, hxe⟩
  exact List.mem_map.mpr ⟨e, mem_alErase l k e he, hxe⟩

lemma alMem_alErase_self (l : List (String × ℚ)) (k : String)
    (hnd : (l.map Prod.fst).Nodup) : alMem (alErase l k) k = false := by
  induction l with
  | nil => simp [alErase, alMem]
  | cons p ps ih =>
    have hnd' : (p.1 :: ps.map Prod.fst).Nodup := by
      simpa only [List.map_cons] using hnd
    have hcons := List.nodup_cons.mp hnd'
    by_cases hpk : p.1 = k
    · subst hpk
      have he : alErase (p :: ps) p.1 = ps := by simp [alErase]
      rw [he]
      cases hm : alMem ps p.1 with
      | false => rfl
      | true => exact absurd ((alMem_iff ps p.1).mp hm) hcons.1
    · simp [alErase, alMem, hpk, ih hcons.2]

lemma keysNodup_alErase (l : List (String × ℚ)) (k : String)
    (hnd : (l.map Prod.fst).Nodup) : ((alErase l k).map Prod.fst).Nodup := by
  induction l with
  | nil => simp [alErase]
  | cons p ps ih =>
    have hnd' : (p.1 :: ps.map Prod.fst).Nodup := by
      simpa only [List.map_cons] using hnd
    have hcons := List.nodup_cons.mp hnd'
    by_cases hpk : p.1 = k
    · simpa [alErase, hpk] using hcons.2
    · simp only [alErase, if_neg hpk, List.map_cons, List.nodup_cons]
      exact ⟨fun hc => hcons.1 (keys_alErase_sub ps k _ hc), ih hcons.2⟩

lemma alGet_nonneg (l : List (String × ℚ)) (k : String)
    (h : ∀ e ∈ l, 0 ≤ e.2) : 0 ≤ alGet l k := by
  induction l with
  | nil => simp [alGet]
  | cons p ps ih =>
    by_cases hpk : p.1 = k
    · simpa [alGet, hpk] using h p (List.mem_cons_self ..)
    · exact (by simpa [alGet, hpk] using ih fun e he => h e (List.mem_cons_of_mem _ he))

lemma alMem_of_mem (l : List (String × ℚ)) (e : String × ℚ) (he : e ∈ l) :
    alMem l e.1 = true :=
  (alMem_iff l e.1).mpr (List.mem_map.mpr ⟨e, he, rfl⟩)

lemma alGet_eq_zero_of_not_mem (l : List (String × ℚ)) (k : String)
    (h : alMem l k = false) : alGet l k = 0 := by
  induction l with
  | nil => simp [alGet]
  | cons p ps ih =>
    have h1 : ¬ p.1 = k := fun hc => by simp [alMem, hc] at h
    have h2 : alMem ps k = false := by simpa [alMem, h1] using h
    simp [alGet, h1, ih h2]

lemma eq_nil_of_forall_not_alMem (l : List (String × ℚ))
    (h : ∀ b, alMem l b = false) : l = [] := by
  cases l with
  | nil => rfl
  | cons p ps => exact absurd (h p.1) (by simp [alMem])

lemma sumExcl_alAdd_ne (l : List (String × ℚ)) (k : String) (v : ℚ) (e : String)
    (hk : k ≠ e) : sumExcl (alAdd l k v) e = sumExcl l e + v := by
  induction l with
  | nil => simp [alAdd, sumExcl, hk]
  | cons p ps ih =>
    by_cases hpk : p.1 = k
    · subst hpk
      have hpe : ¬ p.1 = e := hk
      simp only [alAdd, if_pos rfl, sumExcl, if_neg hpe]
      ring
    · by_cases hpe : p.1 = e
      · subst hpe
        simp only [alAdd, if_neg hpk, sumExcl, ih]
        ring
      · simp only [alAdd, if_neg hpk, sumExcl, if_neg hpe, ih]
        ring

lemma sumExcl_alErase_ne (l : List (String × ℚ)) (k e : String) (hk : k ≠ e) :
    sumExcl (alErase l k) e = sumExcl l e - alGet l k := by
  induction l with
  | nil => simp [alErase, sumExcl, alGet]
  | cons p ps ih =>
    by_cases hpk : p.1 = k
    · subst hpk
      have hpe : ¬ p.1 = e := hk
      have he : alErase (p :: ps) p.1 = ps := by simp [alErase]
      rw [he]
      simp only [sumExcl, if_neg hpe, alGet, if_true, eq_self_iff_true]
      ring
    · by_cases hpe : p.1 = e
      · subst hpe
        simp only [alErase, if_neg hpk, sumExcl, ih, alGet]
        ring
      · simp only [alErase, if_neg hpk, sumExcl, if_neg hpe, ih, alGet]
        ring

/-! Sums of a function over the (duplicate-free) member list. -/

lemma sum_map_congr_mem {f g : String → ℚ} (M : List String)
    (h : ∀ x ∈ M, f x = g x) : (M.map f).sum = (M.map g).sum := by
  induction M with
  | nil => rfl
  | cons m ms ih =>
    simp only [List.map_cons, List.sum_cons]
    rw [h m (List.mem_cons_self ..), ih fun x hx => h x (List.mem_cons_of_mem _ hx)]

lemma sum_map_update1 {f g : String → ℚ} (M : List String) (hM : M.Nodup)
    (p : String) (hp : p ∈ M) (hout : ∀ x ∈ M, x ≠ p → g x = f x) :
    (M.map g).sum = (M.map f).sum + (g p - f p) := by
  induction M with
  | nil => simp at hp
  | cons m ms ih =>
    have hcons := List.nodup_cons.mp hM
    simp only [List.map_cons, List.sum_cons]
    rcases List.mem_cons.mp hp with hpm | hpm
    · subst hpm
      have : (ms.map g).sum = (ms.map f).sum := by
        apply sum_map_congr_mem
        intro x hx
        exact hout x (List.mem_cons_of_mem _ hx) (fun hxp => hcons.1 (hxp ▸ hx))
      rw [this]; ring
    · have hmp : m ≠ p := fun hmp => hcons.1 (hmp ▸ hpm)
      rw [hout m (List.mem_cons_self ..) hmp,
        ih hcons.2 hpm fun x hx hxp => hout x (List.mem_cons_of_mem _ hx) hxp]
      ring

lemma sum_map_update2 {f g : String → ℚ} (M : List String) (hM : M.Nodup)
    (p c : String) (hp : p ∈ M) (hc : c ∈ M) (hpc : p ≠ c)
    (hout : ∀ x ∈ M, x ≠ p → x ≠ c → g x = f x) :
    (M.map g).sum = (M.map f).sum + (g p - f p) + (g c - f c) := by
  induction M with
  | nil => simp at hp
  | cons m ms ih =>
    have hcons := List.nodup_cons.mp hM
    simp only [List.map_cons, List.sum_cons]
    rcases List.mem_cons.mp hp with hpm | hpm
    · subst hpm
      have hcms : c ∈ ms := by
        rcases List.mem_cons.mp hc with h1 | h1
        · exact absurd h1.symm hpc
        · exact h1
      rw [sum_map_update1 ms hcons.2 c hcms
        fun x hx hxc => hout x (List.mem_cons_of_mem _ hx)
          (fun hxp => hcons.1 (hxp ▸ hx)) hxc]
      ring
    · rcases List.mem_cons.mp hc with hcm | hcm
      · subst hcm
        rw [sum_map_update1 ms hcons.2 p hpm
          fun x hx hxp => hout x (List.mem_cons_of_mem _ hx) hxp
            (fun hxc => hcons.1 (hxc ▸ hx))]
        ring
      · have hmp : m ≠ p := fun h => hcons.1 (h ▸ hpm)
        have hmc : m ≠ c := fun h => hcons.1 (h ▸ hcm)
        rw [hout m (List.mem_cons_self ..) hmp hmc,
          ih hcons.2 hpm hcm fun x hx hxp hxc =>
            hout x (List.mem_cons_of_mem _ hx) hxp hxc]
        ring

/-- Net positions summed over a member list. -/
def netSum (M : List String) (f : String → MemberSummary) : ℚ :=
  (M.map (netPos f)).sum

lemma totalNet_eq_netSum (t : Trip) : totalNet t = netSum t.members t.summary := rfl

/-- The obligation-graph part of the reachable-state invariant, relative to
a member list: association-list keys are duplicate-free, the two maps are
mirror images, every edge endpoint is a member, and every stored amount is
non-negative. -/
structure SOK (M : List String) (f : String → MemberSummary) : Prop where
  ndO : ∀ m, ((f m).owes_to.map Prod.fst).Nodup
  ndG : ∀ m, ((f m).gets_from.map Prod.fst).Nodup
  mirM : ∀ a b, (alMem (f a).owes_to b = true) ↔ (alMem (f b).gets_from a = true)
  mirV : ∀ a b, alGet (f a).owes_to b = alGet (f b).gets_from a
  owesM : ∀ a b, alMem (f a).owes_to b = true → a ∈ M ∧ b ∈ M
  nnO : ∀ a, ∀ e ∈ (f a).owes_to, 0 ≤ e.2
  nnG : ∀ a, ∀ e ∈ (f a).gets_from, 0 ≤ e.2

/-- A summary rewrite that leaves both edge maps of every member untouched
preserves the graph invariant. -/
lemma SOK_edges_congr {M : List String} {f f' : String → MemberSummary}
    (h : SOK M f)
    (he : ∀ m, (f' m).owes_to = (f m).owes_to ∧ (f' m).gets_from = (f m).gets_from) :
    SOK M f' := by
  refine ⟨?_, ?_, ?_, ?_, ?_, ?_, ?_⟩
  · intro m; rw [(he m).1]; exact h.ndO m
  · intro m; rw [(he m).2]; exact h.ndG m
  · intro a b; rw [(he a).1, (he b).2]; exact h.mirM a b
  · intro a b; rw [(he a).1, (he b).2]; exact h.mirV a b
  · intro a b hab; rw [(he a).1] at hab; exact h.owesM a b hab
  · intro a; rw [(he a).1]; exact h.nnO a
  · intro a; rw [(he a).2]; exact h.nnG a

lemma netSum_edges_congr {M : List String} {f f' : String → MemberSummary}
    (he : ∀ m, (f' m).owes_to = (f m).owes_to ∧ (f' m).gets_from = (f m).gets_from) :
    netSum M f' = netSum M f :=
  sum_map_congr_mem M fun x _ => by
    unfold netPos; rw [(he x).1, (he x).2]

lemma addEdge_owes (f : String → MemberSummary) (p c : String) (v : ℚ) (x : String) :
    ((addEdge f p c v) x).owes_to =
      if x = p then alAdd (f p).owes_to c v else (f x).owes_to := by
  unfold addEdge updS
  by_cases hxp : x = p
  · subst hxp
    by_cases hxc : x = c
    · subst hxc; simp
    · simp [hxc]
  · by_cases hxc : x = c
    · subst hxc; simp [hxp]
    · simp [hxp, hxc]

lemma addEdge_gets (f : String → MemberSummary) (p c : String) (v : ℚ) (hpc : p ≠ c)
    (x : String) :
    ((addEdge f p c v) x).gets_from =
      if x = c then alAdd (f c).gets_from p v else (f x).gets_from := by
  unfold addEdge updS
  by_cases hxc : x = c
  · subst hxc
    simp [Ne.symm hpc]
  · by_cases hxp : x = p
    · subst hxp
      simp [hxc, hpc]
    · simp [hxc, hxp]

lemma SOK_addEdge {M : List String} {f : String → MemberSummary}
    (hM : M.Nodup) (h : SOK M f) (p c : String) (v : ℚ)
    (hp : p ∈ M) (hc : c ∈ M) (hpc : p ≠ c)
    (hv : 0 ≤ alGet (f p).owes_to c + v) :
    SOK M (addEdge f p c v) ∧ netSum M (addEdge f p c v) = netSum M f := by
  constructor
  · refine ⟨?_, ?_, ?_, ?_, ?_, ?_, ?_⟩
    · intro m
      rw [addEdge_owes]
      by_cases hm : m = p
      · rw [if_pos hm]; exact keysNodup_alAdd _ _ _ (h.ndO p)
      · rw [if_neg hm]; exact h.ndO m
    · intro m
      rw [addEdge_gets f p c v hpc]
      by_cases hm : m = c
      · rw [if_pos hm]; exact keysNodup_alAdd _ _ _ (h.ndG c)
      · rw [if_neg hm]; exact h.ndG m
    · intro a b
      rw [addEdge_owes, addEdge_gets f p c v hpc]
      by_cases hap : a = p <;> by_cases hbc : b = c
      · subst hap; subst hbc
        rw [if_pos rfl, if_pos rfl, alMem_alAdd, alMem_alAdd]
        simp
      · subst hap
        rw [if_pos rfl, if_neg hbc, alMem_alAdd]
        constructor
        · rintro (h1 | h1)
          · exact (h.mirM a b).mp h1
          · exact absurd h1 hbc
        · intro h1; exact Or.inl ((h.mirM a b).mpr h1)
      · subst hbc
        rw [if_neg hap, if_pos rfl, alMem_alAdd]
        constructor
        · intro h1; exact Or.inl ((h.mirM a b).mp h1)
        · rintro (h1 | h1)
          · exact (h.mirM a b).mpr h1
          · exact absurd h1 hap
      · rw [if_neg hap, if_neg hbc]; exact h.mirM a b
    · intro a b
      rw [addEdge_owes, addEdge_gets f p c v hpc]
      by_cases hap : a = p <;> by_cases hbc : b = c
      · subst hap; subst hbc
        rw [if_pos rfl, if_pos rfl, alGet_alAdd, alGet_alAdd, if_pos rfl, if_pos rfl,
          h.mirV a b]
      · subst hap
        rw [if_pos rfl, if_neg hbc, alGet_alAdd, if_neg hbc]
        exact h.mirV a b
      · subst hbc
        rw [if_neg hap, if_pos rfl, alGet_alAdd, if_neg hap]
        exact h.mirV a b
      · rw [if_neg hap, if_neg hbc]; exact h.mirV a b
    · intro a b hab
      rw [addEdge_owes] at hab
      by_cases hap : a = p
      · subst hap
        rw [if_pos rfl, alMem_alAdd] at hab
        rcases hab with h1 | h1
        · exact h.owesM a b h1
        · exact ⟨hp, h1 ▸ hc⟩
      · rw [if_neg hap] at hab; exact h.owesM a b hab
    · intro a
      rw [addEdge_owes]
      by_cases hap : a = p
      · rw [if_pos hap]
        intro e he
        rcases mem_alAdd _ _ _ e he with h1 | h1
        · exact h.nnO p e h1
        · rw [h1]; exact hv
      · rw [if_neg hap]; exact h.nnO a
    · intro a
      rw [addEdge_gets f p c v hpc]
      by_cases hac : a = c
      · rw [if_pos hac]
        intro e he
        rcases mem_alAdd _ _ _ e he with h1 | h1
        · exact h.nnG c e h1
        · rw [h1]
          simpa [← h.mirV p c] using hv
      · rw [if_neg hac]; exact h.nnG a
  · have hout : ∀ x ∈ M, x ≠ p → x ≠ c → netPos (addEdge f p c v) x = netPos f x := by
      intro x _ hxp hxc
      unfold netPos
      rw [addEdge_owes, addEdge_gets f p c v hpc, if_neg hxp, if_neg hxc]
    have hdp : netPos (addEdge f p c v) p = netPos f p - v := by
      unfold netPos
      rw [addEdge_owes, addEdge_gets f p c v hpc, if_pos rfl, if_neg hpc,
        sumExcl_alAdd_ne _ _ _ _ (Ne.symm hpc)]
      ring
    have hdc : netPos (addEdge f p c v) c = netPos f c + v := by
      unfold netPos
      rw [addEdge_owes, addEdge_gets f p c v hpc, if_pos rfl, if_neg (Ne.symm hpc),
        sumExcl_alAdd_ne _ _ _ _ hpc]
      ring
    unfold netSum
    rw [sum_map_update2 M hM p c hp hc hpc hout, hdp, hdc]
    ring

lemma eraseEdge_owes (f : String → MemberSummary) (p c : String) (x : String) :
    ((eraseEdge f p c) x).owes_to =
      if x = p then alErase (f p).owes_to c else (f x).owes_to := by
  unfold eraseEdge updS
  by_cases hxp : x = p
  · subst hxp
    by_cases hxc : x = c
    · subst hxc; simp
    · simp [hxc]
  · by_cases hxc : x = c
    · subst hxc; simp [hxp]
    · simp [hxp, hxc]

lemma eraseEdge_gets (f : String → MemberSummary) (p c : String) (hpc : p ≠ c)
    (x : String) :
    ((eraseEdge f p c) x).gets_from =
      if x = c then alErase (f c).gets_from p else (f x).gets_from := by
  unfold eraseEdge updS
  by_cases hxc : x = c
  · subst hxc
    simp [Ne.symm hpc]
  · by_cases hxp : x = p
    · subst hxp
      simp [hxc, hpc]
    · simp [hxc, hxp]

lemma SOK_eraseEdge {M : List String} {f : String → MemberSummary}
    (hM : M.Nodup) (h : SOK M f) (p c : String)
    (hp : p ∈ M) (hc : c ∈ M) (hpc : p ≠ c) :
    SOK M (eraseEdge f p c) ∧ netSum M (eraseEdge f p c) = netSum M f := by
  constructor
  · refine ⟨?_, ?_, ?_, ?_, ?_, ?_, ?_⟩
    · intro m
      rw [eraseEdge_owes]
      by_cases hm : m = p
      · rw [if_pos hm]; exact keysNodup_alErase _ _ (h.ndO p)
      · rw [if_neg hm]; exact h.ndO m
    · intro m
      rw [eraseEdge_gets f p c hpc]
      by_cases hm : m = c
      · rw [if_pos hm]; exact keysNodup_alErase _ _ (h.ndG c)
      · rw [if_neg hm]; exact h.ndG m
    · intro a b
      rw [eraseEdge_owes, eraseEdge_gets f p c hpc]
      by_cases hap : a = p <;> by_cases hbc : b = c
      · subst hap; subst hbc
        rw [if_pos rfl, if_pos rfl, alMem_alErase_self _ _ (h.ndO a),
          alMem_alErase_self _ _ (h.ndG b)]
      · subst hap
        rw [if_pos rfl, if_neg hbc, alMem_alErase_ne _ _ _ (fun hx => hbc hx)]
        exact h.mirM a b
      · subst hbc
        rw [if_neg hap, if_pos rfl, alMem_alErase_ne _ _ _ (fun hx => hap hx)]
        exact h.mirM a b
      · rw [if_neg hap, if_neg hbc]; exact h.mirM a b
    · intro a b
      rw [eraseEdge_owes, eraseEdge_gets f p c hpc]
      by_cases hap : a = p <;> by_cases hbc : b = c
      · subst hap; subst hbc
        rw [if_pos rfl, if_pos rfl,
          alGet_eq_zero_of_not_mem _ _ (alMem_alErase_self _ _ (h.ndO a)),
          alGet_eq_zero_of_not_mem _ _ (alMem_alErase_self _ _ (h.ndG b))]
      · subst hap
        rw [if_pos rfl, if_neg hbc, alGet_alErase_ne _ _ _ (fun hx => hbc hx)]
        exact h.mirV a b
      · subst hbc
        rw [if_neg hap, if_pos rfl, alGet_alErase_ne _ _ _ (fun hx => hap hx)]
        exact h.mirV a b
      · rw [if_neg hap, if_neg hbc]; exact h.mirV a b
    · intro a b hab
      rw [eraseEdge_owes] at hab
      by_cases hap : a = p
      · subst hap
        by_cases hbc : b = c
        · subst hbc
          rw [if_pos rfl, alMem_alErase_self _ _ (h.ndO a)] at hab
          cases hab
        · rw [if_pos rfl, alMem_alErase_ne _ _ _ (fun hx => hbc hx)] at hab
          exact h.owesM a b hab
      · rw [if_neg hap] at hab; exact h.owesM a b hab
    · intro a
      rw [eraseEdge_owes]
      by_cases hap : a = p
      · subst hap
        rw [if_pos rfl]
        intro e he
        exact h.nnO a e (mem_alErase _ _ e he)
      · rw [if_neg hap]; exact h.nnO a
    · intro a
      rw [eraseEdge_gets f p c hpc]
      by_cases hac : a = c
      · subst hac
        rw [if_pos rfl]
        intro e he
        exact h.nnG a e (mem_alErase _ _ e he)
      · rw [if_neg hac]; exact h.nnG a
  · have hout : ∀ x ∈ M, x ≠ p → x ≠ c → netPos (eraseEdge f p c) x = netPos f x := by
      intro x _ hxp hxc
      unfold netPos
      rw [eraseEdge_owes, eraseEdge_gets f p c hpc, if_neg hxp, if_neg hxc]
    have hdp : netPos (eraseEdge f p c) p = netPos f p + alGet (f p).owes_to c := by
      unfold netPos
      rw [eraseEdge_owes, eraseEdge_gets f p c hpc, if_pos rfl, if_neg hpc,
        sumExcl_alErase_ne _ _ _ (Ne.symm hpc)]
      ring
    have hdc : netPos (eraseEdge f p c) c = netPos f c - alGet (f p).owes_to c := by
      unfold netPos
      rw [eraseEdge_owes, eraseEdge_gets f p c hpc, if_pos rfl, if_neg (Ne.symm hpc),
        sumExcl_alErase_ne _ _ _ hpc, h.mirV p c]
      ring
    unfold netSum
    rw [sum_map_update2 M hM p c hp hc hpc hout, hdp, hdc]
    ring

/-! Auxiliary facts: advance-pool key discipline, rounding, sorting,
fold invariants. -/

/-- All contributor keys stored in an advance pool are members. -/
def AdvOKL (M : List String) (adv : List (String × List (String × ℚ))) : Prop :=
  ∀ ent ∈ adv, ∀ e ∈ ent.2, e.1 ∈ M

lemma AdvOKL_mget {M : List String} {adv : List (String × List (String × ℚ))}
    (h : AdvOKL M adv) (k : String) : ∀ e ∈ mget adv k, e.1 ∈ M := by
  induction adv with
  | nil => intro e he; simp [mget] at he
  | cons ent es ih =>
    intro e he
    by_cases hk : ent.1 = k
    · rw [mget, if_pos hk] at he
      exact h ent (List.mem_cons_self ..) e he
    · rw [mget, if_neg hk] at he
      exact ih (fun x hx => h x (List.mem_cons_of_mem _ hx)) e he

lemma AdvOKL_madd {M : List String} {adv : List (String × List (String × ℚ))}
    (h : AdvOKL M adv) (dst src : String) (amt : ℚ) (hsrc : src ∈ M) :
    AdvOKL M (madd adv dst src amt) := by
  induction adv with
  | nil =>
    intro ent hent e he
    simp [madd] at hent
    rcases mem_alAdd [] src amt e (by rw [hent] at he; exact he) with h1 | h1
    · simp at h1
    · rw [h1]; exact hsrc
  | cons q qs ih =>
    intro ent hent e he
    by_cases hq : q.1 = dst
    · rw [madd, if_pos hq] at hent
      rcases List.mem_cons.mp hent with h1 | h1
      · rcases mem_alAdd q.2 src amt e (by rw [h1] at he; exact he) with h2 | h2
        · exact h q (List.mem_cons_self ..) e h2
        · rw [h2]; exact hsrc
      · exact h ent (List.mem_cons_of_mem _ h1) e he
    · rw [madd, if_neg hq] at hent
      rcases List.mem_cons.mp hent with h1 | h1
      · exact h q (h1 ▸ List.mem_cons_self ..) e (h1 ▸ he)
      · exact ih (fun x hx => h x (List.mem_cons_of_mem _ hx)) ent h1 e he

lemma AdvOKL_mset {M : List String} {adv : List (String × List (String × ℚ))}
    (h : AdvOKL M adv) (k : String) (inner : List (String × ℚ))
    (hin : ∀ e ∈ inner, e.1 ∈ M) : AdvOKL M (mset adv k inner) := by
  induction adv with
  | nil =>
    intro ent hent e he
    simp [mset] at hent
    exact hin e (by rw [hent] at he; exact he)
  | cons q qs ih =>
    intro ent hent e he
    by_cases hq : q.1 = k
    · rw [mset, if_pos hq] at hent
      rcases List.mem_cons.mp hent with h1 | h1
      · exact hin e (by rw [h1] at he; exact he)
      · exact h ent (List.mem_cons_of_mem _ h1) e he
    · rw [mset, if_neg hq] at hent
      rcases List.mem_cons.mp hent with h1 | h1
      · exact h q (h1 ▸ List.mem_cons_self ..) e (h1 ▸ he)
      · exact ih (fun x hx => h x (List.mem_cons_of_mem _ hx)) ent h1 e he

lemma AdvOKL_append {M : List String} {adv : List (String × List (String × ℚ))}
    (h : AdvOKL M adv) (n : String) : AdvOKL (M ++ [n]) adv :=
  fun ent hent e he => List.mem_append_left _ (h ent hent e he)

lemma roundHalfEven_nonneg (x : ℚ) (hx : 0 ≤ x) : 0 ≤ roundHalfEven x := by
  have hf : (0 : ℤ) ≤ ⌊x⌋ := Int.floor_nonneg.mpr hx
  simp only [roundHalfEven]
  split_ifs <;> omega

lemma rnd2_nonneg (x : ℚ) (hx : 0 ≤ x) : 0 ≤ rnd2 x := by
  unfold rnd2
  have h1 : (0 : ℚ) ≤ (roundHalfEven (100 * x) : ℚ) := by
    exact_mod_cast roundHalfEven_nonneg (100 * x) (by positivity)
  positivity

lemma insDesc_perm (x : String × ℚ) (l : List (String × ℚ)) :
    (insDesc x l).Perm (x :: l) := by
  induction l with
  | nil => simp [insDesc]
  | cons y ys ih =>
    by_cases hlt : x.2 < y.2
    · rw [insDesc, if_pos hlt]
      exact (ih.cons y).trans (List.Perm.swap x y ys)
    · rw [insDesc, if_neg hlt]

lemma sortByValDesc_perm (l : List (String × ℚ)) : (sortByValDesc l).Perm l := by
  induction l with
  | nil => simp [sortByValDesc]
  | cons x xs ih =>
    exact (insDesc_perm x (sortByValDesc xs)).trans (ih.cons x)

lemma insDesc_sorted (x : String × ℚ) (l : List (String × ℚ))
    (h : l.Pairwise (fun a b => b.2 ≤ a.2)) :
    (insDesc x l).Pairwise (fun a b => b.2 ≤ a.2) := by
  induction l with
  | nil => simp [insDesc]
  | cons y ys ih =>
    rcases List.pairwise_cons.mp h with ⟨hy, hys⟩
    by_cases hlt : x.2 < y.2
    · rw [insDesc, if_pos hlt]
      refine List.pairwise_cons.mpr ⟨?_, ih hys⟩
      intro z hz
      rcases List.mem_cons.mp ((insDesc_perm x ys).mem_iff.mp hz) with h1 | h1
      · rw [h1]; exact le_of_lt hlt
      · exact hy z h1
    · rw [insDesc, if_neg hlt]
      refine List.pairwise_cons.mpr ⟨?_, h⟩
      intro z hz
      rcases List.mem_cons.mp hz with h1 | h1
      · rw [h1]; exact le_of_not_lt hlt
      · exact le_trans (hy z h1) (le_of_not_lt hlt)

lemma sortByValDesc_sorted (l : List (String × ℚ)) :
    (sortByValDesc l).Pairwise (fun a b => b.2 ≤ a.2) := by
  induction l with
  | nil => simp [sortByValDesc]
  | cons x xs ih => exact insDesc_sorted x _ ih

/-- Generic invariant preservation along a left fold. -/
lemma foldl_invariant {α β : Type} (P : β → Prop) (step : β → α → β)
    (l : List α) (b0 : β) (Q : α → Prop) (hQ : ∀ a ∈ l, Q a)
    (hstep : ∀ b a, P b → Q a → P (step b a)) (h0 : P b0) :
    P (l.foldl step b0) := by
  induction l generalizing b0 with
  | nil => exact h0
  | cons a as ih =>
    apply ih
    · intro x hx
      exact hQ x (List.mem_cons_of_mem _ hx)
    · exact hstep b0 a h0 (hQ a (List.mem_cons_self ..))

/-- Sources appended by the contributor loop name only contributors from
the list being folded over. -/
lemma drawContribFold_srcs (person : String) (contribs : List (String × ℚ)) :
    ∀ cs : List (String × ℚ), (∀ c ∈ cs, c ∈ contribs) →
      ∀ st : List (String × ℚ) × ℚ × List (String × ℚ),
        (∀ e ∈ st.1, e.1 = person ∨ e.1 ∈ contribs.map Prod.fst) →
        ∀ e ∈ (cs.foldl (drawContribStep person) st).1,
          e.1 = person ∨ e.1 ∈ contribs.map Prod.fst := by
  intro cs
  induction cs with
  | nil => intro _ st hst e he; exact hst e he
  | cons c cs ih =>
    intro hcs st hst
    apply ih (fun x hx => hcs x (List.mem_cons_of_mem _ hx))
    intro e he
    simp only [drawContribStep] at he
    split_ifs at he with h1 h2
    · exact hst e he
    · exact hst e he
    · rcases List.mem_append.mp he with h3 | h3
      · exact hst e h3
      · rw [List.mem_singleton.mp h3]
        exact Or.inr (List.mem_map.mpr ⟨c, hcs c (List.mem_cons_self ..), rfl⟩)

/-- Every source recorded for a participant names the participant itself, a
contributor from the pre-sorted list, or the payer. -/
lemma drawForPerson_srcs (payer : String) (contribs : List (String × ℚ))
    (perHead : ℚ) (adv : List (String × ℚ)) (person : String) :
    ∀ e ∈ (drawForPerson payer contribs perHead adv person).1,
      e.1 = person ∨ e.1 ∈ contribs.map Prod.fst ∨ e.1 = payer := by
  intro e he
  by_cases hown : alMem adv person ∧ 0 < alGet adv person
  · simp only [drawForPerson, if_pos hown] at he
    have hst : ∀ e' ∈ [(person, min perHead (alGet adv person))],
        (e' : String × ℚ).1 = person ∨ e'.1 ∈ contribs.map Prod.fst := by
      intro e' he'
      rw [List.mem_singleton.mp he']
      exact Or.inl rfl
    split_ifs at he with hpos
    · rcases List.mem_append.mp he with h1 | h1
      · rcases drawContribFold_srcs person contribs contribs (fun c hc => hc) _ hst e h1 with
          h | h
        · exact Or.inl h
        · exact Or.inr (Or.inl h)
      · rw [List.mem_singleton.mp h1]
        exact Or.inr (Or.inr rfl)
    · rcases drawContribFold_srcs person contribs contribs (fun c hc => hc) _ hst e he with
        h | h
      · exact Or.inl h
      · exact Or.inr (Or.inl h)
  · simp only [drawForPerson, if_neg hown] at he
    have hst : ∀ e' ∈ ([] : List (String × ℚ)),
        e'.1 = person ∨ e'.1 ∈ contribs.map Prod.fst := by
      intro e' he'
      simp at he'
    split_ifs at he with hpos
    · rcases List.mem_append.mp he with h1 | h1
      · rcases drawContribFold_srcs person contribs contribs (fun c hc => hc) _ hst e h1 with
          h | h
        · exact Or.inl h
        · exact Or.inr (Or.inl h)
      · rw [List.mem_singleton.mp h1]
        exact Or.inr (Or.inr rfl)
    · rcases drawContribFold_srcs person contribs contribs (fun c hc => hc) _ hst e he with
        h | h
      · exact Or.inl h
      · exact Or.inr (Or.inl h)

lemma mappendSrcs_entries {parts keys : List String} {payer : String}
    (ssm : List (String × List (String × ℚ))) (k : String) (srcs : List (String × ℚ))
    (hssm : ∀ ent ∈ ssm, ent.1 ∈ parts ∧
      ∀ e ∈ ent.2, e.1 ∈ parts ∨ e.1 ∈ keys ∨ e.1 = payer)
    (hk : k ∈ parts)
    (hsrcs : ∀ e ∈ srcs, e.1 ∈ parts ∨ e.1 ∈ keys ∨ e.1 = payer) :
    ∀ ent ∈ mappendSrcs ssm k srcs, ent.1 ∈ parts ∧
      ∀ e ∈ ent.2, e.1 ∈ parts ∨ e.1 ∈ keys ∨ e.1 = payer := by
  induction ssm with
  | nil =>
    intro ent hent
    simp [mappendSrcs] at hent
    rw [hent]
    exact ⟨hk, hsrcs⟩
  | cons q qs ih =>
    intro ent hent
    by_cases hq : q.1 = k
    · rw [mappendSrcs, if_pos hq] at hent
      rcases List.mem_cons.mp hent with h1 | h1
      · rw [h1]
        refine ⟨(hssm q (List.mem_cons_self ..)).1, ?_⟩
        intro e he
        rcases List.mem_append.mp he with h2 | h2
        · exact (hssm q (List.mem_cons_self ..)).2 e h2
        · exact hsrcs e h2
      · exact hssm ent (List.mem_cons_of_mem _ h1)
    · rw [mappendSrcs, if_neg hq] at hent
      rcases List.mem_cons.mp hent with h1 | h1
      · exact h1 ▸ hssm q (List.mem_cons_self ..)
      · exact ih (fun x hx => hssm x (List.mem_cons_of_mem _ hx)) ent h1

lemma buildSSM_entries (payer : String) (contribs : List (String × ℚ))
    (perHead : ℚ) (parts : List String) (adv0 : List (String × ℚ)) :
    ∀ ent ∈ (buildSSM payer contribs perHead parts adv0).1,
      ent.1 ∈ parts ∧
        ∀ e ∈ ent.2, e.1 ∈ parts ∨ e.1 ∈ contribs.map Prod.fst ∨ e.1 = payer := by
  unfold buildSSM
  have := foldl_invariant
    (fun acc : List (String × List (String × ℚ)) × List (String × ℚ) =>
      ∀ ent ∈ acc.1, ent.1 ∈ parts ∧
        ∀ e ∈ ent.2, e.1 ∈ parts ∨ e.1 ∈ contribs.map Prod.fst ∨ e.1 = payer)
    (buildStep payer contribs perHead) parts ([], adv0) (fun a => a ∈ parts)
    (fun a ha => ha) ?_ ?_
  · exact this
  · intro b person hb hperson
    simp only [buildStep]
    split_ifs with hemp
    · exact hb
    · apply mappendSrcs_entries b.1 person _ hb hperson
      intro e he
      rcases drawForPerson_srcs payer contribs perHead b.2 person e he with h | h | h
      · exact Or.inl (h ▸ hperson)
      · exact Or.inr (Or.inl h)
      · exact Or.inr (Or.inr h)
  · intro ent hent
    simp at hent

lemma flattenSSM_conds {parts keys : List String} {payer : String}
    (ssm : List (String × List (String × ℚ)))
    (h : ∀ ent ∈ ssm, ent.1 ∈ parts ∧
      ∀ e ∈ ent.2, e.1 ∈ parts ∨ e.1 ∈ keys ∨ e.1 = payer) :
    ∀ tr ∈ flattenSSM ssm,
      tr.1 ∈ parts ∧ (tr.2.1 ∈ parts ∨ tr.2.1 ∈ keys ∨ tr.2.1 = payer) := by
  intro tr htr
  rcases List.mem_flatMap.mp htr with ⟨ent, hent, htr2⟩
  rcases List.mem_map.mp htr2 with ⟨ca, hca, heq⟩
  obtain ⟨h1, h2⟩ := h ent hent
  rw [← heq]
  exact ⟨h1, h2 ca hca⟩

/-! Preservation of the graph invariant by the individual summary
updates. -/

lemma SOK_attribOne {M : List String} {f : String → MemberSummary}
    (hM : M.Nodup) (h : SOK M f) (n0 : ℚ) (hn : netSum M f = n0)
    (pool0 : List (String × ℚ)) (payer : String) (tr : String × String × ℚ)
    (hp : tr.1 ∈ M) (hc : tr.2.1 ∈ M) :
    SOK M (attribOne pool0 payer f tr) ∧
      netSum M (attribOne pool0 payer f tr) = n0 := by
  simp only [attribOne]
  split_ifs with hskip hpool hpayer
  · exact ⟨h, hn⟩
  · push_neg at hskip
    have hamt : 0 < tr.2.2 := hskip.1
    have hne : tr.1 ≠ tr.2.1 := hskip.2
    have hv : 0 ≤ alGet (f tr.1).owes_to tr.2.1 + tr.2.2 :=
      add_nonneg (alGet_nonneg _ _ (h.nnO tr.1)) (le_of_lt hamt)
    obtain ⟨hS2, hN2⟩ := SOK_addEdge hM h tr.1 tr.2.1 tr.2.2 hp hc hne hv
    have he : ∀ m,
        ((updS (updS (addEdge f tr.1 tr.2.1 tr.2.2) tr.1 fun s =>
            { s with advance_used_from_others := s.advance_used_from_others + tr.2.2 })
          tr.2.1 fun s =>
            { s with advance_used_by_others := s.advance_used_by_others + tr.2.2,
                     advance_balance := s.advance_balance - tr.2.2 }) m).owes_to =
          ((addEdge f tr.1 tr.2.1 tr.2.2) m).owes_to ∧
        ((updS (updS (addEdge f tr.1 tr.2.1 tr.2.2) tr.1 fun s =>
            { s with advance_used_from_others := s.advance_used_from_others + tr.2.2 })
          tr.2.1 fun s =>
            { s with advance_used_by_others := s.advance_used_by_others + tr.2.2,
                     advance_balance := s.advance_balance - tr.2.2 }) m).gets_from =
          ((addEdge f tr.1 tr.2.1 tr.2.2) m).gets_from := by
      intro m
      have h3 : ¬ tr.2.1 = tr.1 := fun hx => hne hx.symm
      have h4 : ¬ tr.1 = tr.2.1 := hne
      unfold updS
      by_cases h1 : m = tr.2.1 <;> by_cases h2 : m = tr.1
      · exact absurd (h2.symm.trans h1) hne
      · simp [h1, h2, h3, h4]
      · simp [h1, h2, h3, h4]
      · simp [h1, h2, h3, h4]
    exact ⟨SOK_edges_congr hS2 he, (netSum_edges_congr he).trans (hN2.trans hn)⟩
  · push_neg at hskip
    have hamt : 0 < tr.2.2 := hskip.1
    have hne : tr.1 ≠ tr.2.1 := hskip.2
    have hv : 0 ≤ alGet (f tr.1).owes_to tr.2.1 + tr.2.2 :=
      add_nonneg (alGet_nonneg _ _ (h.nnO tr.1)) (le_of_lt hamt)
    obtain ⟨hS2, hN2⟩ := SOK_addEdge hM h tr.1 tr.2.1 tr.2.2 hp hc hne hv
    have he : ∀ m,
        ((updS (addEdge f tr.1 tr.2.1 tr.2.2) tr.2.1 fun s =>
            { s with own_paid := s.own_paid + tr.2.2 }) m).owes_to =
          ((addEdge f tr.1 tr.2.1 tr.2.2) m).owes_to ∧
        ((updS (addEdge f tr.1 tr.2.1 tr.2.2) tr.2.1 fun s =>
            { s with own_paid := s.own_paid + tr.2.2 }) m).gets_from =
          ((addEdge f tr.1 tr.2.1 tr.2.2) m).gets_from := by
      intro m
      unfold updS
      by_cases h1 : m = tr.2.1 <;> simp [h1]
    exact ⟨SOK_edges_congr hS2 he, (netSum_edges_congr he).trans (hN2.trans hn)⟩
  · push_neg at hskip
    have hamt : 0 < tr.2.2 := hskip.1
    have hne : tr.1 ≠ tr.2.1 := hskip.2
    have hv : 0 ≤ alGet (f tr.1).owes_to tr.2.1 + tr.2.2 :=
      add_nonneg (alGet_nonneg _ _ (h.nnO tr.1)) (le_of_lt hamt)
    obtain ⟨hS2, hN2⟩ := SOK_addEdge hM h tr.1 tr.2.1 tr.2.2 hp hc hne hv
    exact ⟨hS2, hN2.trans hn⟩

lemma SOK_attribFold {M : List String} {f : String → MemberSummary}
    (hM : M.Nodup) (h : SOK M f) (pool0 : List (String × ℚ)) (payer : String)
    (trs : List (String × String × ℚ))
    (htrs : ∀ tr ∈ trs, tr.1 ∈ M ∧ tr.2.1 ∈ M) :
    SOK M (trs.foldl (attribOne pool0 payer) f) ∧
      netSum M (trs.foldl (attribOne pool0 payer) f) = netSum M f := by
  exact foldl_invariant
    (fun g => SOK M g ∧ netSum M g = netSum M f)
    (attribOne pool0 payer) trs f (fun tr => tr.1 ∈ M ∧ tr.2.1 ∈ M) htrs
    (fun g tr hg htr => SOK_attribOne hM hg.1 (netSum M f) hg.2 pool0 payer tr htr.1 htr.2)
    ⟨h, rfl⟩

lemma SOK_noAdvStep {M : List String} {f : String → MemberSummary}
    (hM : M.Nodup) (h : SOK M f)
    (adv : List (String × List (String × ℚ))) (payer : String) (eqShare : ℚ)
    (person : String) (hpm : payer ∈ M) (hper : person ∈ M) (hnn : 0 ≤ eqShare) :
    SOK M (noAdvStep adv payer eqShare f person) ∧
      netSum M (noAdvStep adv payer eqShare f person) = netSum M f := by
  unfold noAdvStep
  split_ifs with h1 h2
  · exact ⟨h, rfl⟩
  · have he : ∀ m,
        ((updS (updS f person fun s =>
            { s with advance_used_from_others := s.advance_used_from_others + eqShare,
                     advance_balance := s.advance_balance - eqShare })
          payer fun s =>
            { s with advance_used_by_others := s.advance_used_by_others + eqShare }) m).owes_to =
          (f m).owes_to ∧
        ((updS (updS f person fun s =>
            { s with advance_used_from_others := s.advance_used_from_others + eqShare,
                     advance_balance := s.advance_balance - eqShare })
          payer fun s =>
            { s with advance_used_by_others := s.advance_used_by_others + eqShare }) m).gets_from =
          (f m).gets_from := by
      intro m
      have h3 : ¬ payer = person := fun hx => h1 hx.symm
      have h4 : ¬ person = payer := h1
      unfold updS
      by_cases hm1 : m = payer <;> by_cases hm2 : m = person
      · exact absurd (hm2.symm.trans hm1) h1
      · simp [hm1, hm2, h3, h4]
      · simp [hm1, hm2, h3, h4]
      · simp [hm1, hm2, h3, h4]
    exact ⟨SOK_edges_congr h he, netSum_edges_congr he⟩
  · have hv : 0 ≤ alGet (f person).owes_to payer + eqShare :=
      add_nonneg (alGet_nonneg _ _ (h.nnO person)) hnn
    exact SOK_addEdge hM h person payer eqShare hper hpm h1 hv

lemma shareAll_edges (perHead : ℚ) :
    ∀ (parts : List String) (f : String → MemberSummary) (m : String),
      ((shareAll f perHead parts) m).owes_to = (f m).owes_to ∧
        ((shareAll f perHead parts) m).gets_from = (f m).gets_from := by
  intro parts
  induction parts with
  | nil => intro f m; exact ⟨rfl, rfl⟩
  | cons p ps ih =>
    intro f m
    have hbase : ((updS f p fun s => { s with share := s.share + perHead }) m).owes_to =
        (f m).owes_to ∧
        ((updS f p fun s => { s with share := s.share + perHead }) m).gets_from =
          (f m).gets_from := by
      unfold updS
      by_cases hm : m = p <;> simp [hm]
    have hstep := ih (updS f p fun s => { s with share := s.share + perHead }) m
    unfold shareAll at hstep ⊢
    simp only [List.foldl_cons]
    rw [hstep.1, hstep.2, hbase.1, hbase.2]
    exact ⟨rfl, rfl⟩

/-- The full reachable-state invariant. -/
def Inv (t : Trip) : Prop :=
  t.members.Nodup ∧ SOK t.members t.summary ∧
    netSum t.members t.summary = 0 ∧ AdvOKL t.members t.advances

lemma Inv_initTrip : Inv initTrip := by
  refine ⟨List.nodup_nil, ⟨?_, ?_, ?_, ?_, ?_, ?_, ?_⟩, rfl, ?_⟩
  · intro m; simp [initTrip, emptySummary]
  · intro m; simp [initTrip, emptySummary]
  · intro a b; simp [initTrip, emptySummary, alMem]
  · intro a b; simp [initTrip, emptySummary, alGet]
  · intro a b hab; simp [initTrip, emptySummary, alMem] at hab
  · intro a; simp [initTrip, emptySummary]
  · intro a; simp [initTrip, emptySummary]
  · intro ent hent; simp [initTrip] at hent

lemma SOK_append {M : List String} {f : String → MemberSummary}
    (h : SOK M f) (n : String) : SOK (M ++ [n]) f :=
  ⟨h.ndO, h.ndG, h.mirM, h.mirV,
    fun a b hab =>
      ⟨List.mem_append_left _ (h.owesM a b hab).1,
        List.mem_append_left _ (h.owesM a b hab).2⟩,
    h.nnO, h.nnG⟩

lemma netPos_fresh {M : List String} {f : String → MemberSummary}
    (h : SOK M f) (n : String) (hn : n ∉ M) : netPos f n = 0 := by
  have hOw : (f n).owes_to = [] := by
    apply eq_nil_of_forall_not_alMem
    intro b
    cases hm : alMem (f n).owes_to b with
    | false => rfl
    | true => exact absurd (h.owesM n b hm).1 hn
  have hG : (f n).gets_from = [] := by
    apply eq_nil_of_forall_not_alMem
    intro b
    cases hm : alMem (f n).gets_from b with
    | false => rfl
    | true => exact absurd (h.owesM b n ((h.mirM b n).mpr hm)).2 hn
  unfold netPos
  rw [hOw, hG]
  simp [sumExcl]

lemma netSum_append1 (M : List String) (n : String) (f : String → MemberSummary) :
    netSum (M ++ [n]) f = netSum M f + netPos f n := by
  unfold netSum
  simp

/-! Invariant preservation by each UI-level operation. -/

lemma Inv_addMemberClick (t : Trip) (name : String) (h : Inv t) :
    Inv (addMemberClick t name).1 := by
  unfold addMemberClick
  split_ifs with hg
  · obtain ⟨hM, hS, hN, hA⟩ := h
    refine ⟨?_, SOK_append hS name, ?_, AdvOKL_append hA name⟩
    · simp only [List.nodup_append, List.nodup_singleton, true_and]
      refine ⟨hM, ?_⟩
      intro x hx
      simp only [List.mem_singleton]
      intro hxn
      exact hg.2 (hxn ▸ hx)
    · rw [netSum_append1, hN, netPos_fresh hS name hg.2]
      ring
  · exact h

lemma Inv_advanceClick (t : Trip) (src dst : String) (amt : ℚ) (h : Inv t)
    (hsrc : src ∈ t.members) : Inv (advanceClick t src dst amt).1 := by
  unfold advanceClick
  split_ifs with hg
  · obtain ⟨hM, hS, hN, hA⟩ := h
    have he : ∀ m,
        ((updS (updS t.summary src fun s =>
            { s with advance_given := s.advance_given + amt,
                     advance_balance := s.advance_balance + amt })
          dst fun s => { s with advance_received := s.advance_received + amt }) m).owes_to =
          (t.summary m).owes_to ∧
        ((updS (updS t.summary src fun s =>
            { s with advance_given := s.advance_given + amt,
                     advance_balance := s.advance_balance + amt })
          dst fun s => { s with advance_received := s.advance_received + amt }) m).gets_from =
          (t.summary m).gets_from := by
      intro m
      have h3 : ¬ dst = src := fun hx => hg hx.symm
      unfold updS
      by_cases h1 : m = dst <;> by_cases h2 : m = src <;> simp [h1, h2, h3, hg]
    exact ⟨hM, SOK_edges_congr hS he, (netSum_edges_congr he).trans hN,
      AdvOKL_madd hA dst src amt hsrc⟩
  · exact h

lemma Inv_settleClick (t : Trip) (src dst : String) (amt : ℚ) (note : String)
    (h : Inv t) (hsrc : src ∈ t.members) (hdst : dst ∈ t.members) (hne : src ≠ dst)
    (hamtle : amt ≤ alGet (t.summary src).owes_to dst) :
    Inv (settleClick t src dst amt note) := by
  obtain ⟨hM, hS, hN, hA⟩ := h
  have hpayle : min amt (alGet (t.summary src).owes_to dst) ≤
      alGet (t.summary src).owes_to dst := min_le_right _ _
  have hv : 0 ≤ alGet (t.summary src).owes_to dst +
      (-(min amt (alGet (t.summary src).owes_to dst))) := by linarith
  obtain ⟨hS2, hN2⟩ :=
    SOK_addEdge hM hS src dst (-(min amt (alGet (t.summary src).owes_to dst)))
      hsrc hdst hne hv
  have e1 : alGet ((addEdge t.summary src dst
      (-(min amt (alGet (t.summary src).owes_to dst)))) src).owes_to dst =
      alGet (t.summary src).owes_to dst -
        min amt (alGet (t.summary src).owes_to dst) := by
    rw [addEdge_owes, if_pos rfl, alGet_alAdd, if_pos rfl]
    ring
  have hgets3 : ∀ g : String → MemberSummary, ∀ m,
      ((updS g src fun s => { s with owes_to := alErase s.owes_to dst }) m).gets_from =
        (g m).gets_from := by
    intro g m
    unfold updS
    by_cases h1 : m = src <;> simp [h1]
  simp only [settleClick]
  by_cases hc : alGet ((addEdge t.summary src dst
      (-(min amt (alGet (t.summary src).owes_to dst)))) src).owes_to dst ≤ 0
  · rw [if_pos hc]
    have hc2 : alGet ((updS (addEdge t.summary src dst
          (-(min amt (alGet (t.summary src).owes_to dst)))) src
          fun s => { s with owes_to := alErase s.owes_to dst }) dst).gets_from src ≤ 0 := by
      rw [hgets3, ← hS2.mirV src dst]
      exact hc
    rw [if_pos hc2]
    obtain ⟨hS4, hN4⟩ := SOK_eraseEdge hM hS2 src dst hsrc hdst hne
    exact ⟨hM, hS4, hN4.trans (hN2.trans hN), hA⟩
  · rw [if_neg hc]
    have hc2 : ¬ alGet ((addEdge t.summary src dst
        (-(min amt (alGet (t.summary src).owes_to dst)))) dst).gets_from src ≤ 0 := by
      rw [← hS2.mirV src dst]
      exact hc
    rw [if_neg hc2]
    exact ⟨hM, hS2, hN2.trans hN, hA⟩

lemma Inv_expenseClick (t : Trip) (payer : String) (amount : ℚ)
    (parts : List String) (reason : String) (h : Inv t)
    (hpm : payer ∈ t.members) (hparts : ∀ p ∈ parts, p ∈ t.members) :
    Inv (expenseClick t payer amount parts reason) := by
  obtain ⟨hM, hS, hN, hA⟩ := h
  have hshare : ∀ (t1 : Trip), t1.members = t.members → Inv t1 →
      Inv { t1 with
        summary := shareAll t1.summary (rnd2 (amount / (parts.length : ℚ))) parts,
        expenses := t1.expenses ++ [⟨payer, amount, parts, reason⟩],
        transactions := t1.transactions ++
          [LogEntry.expense payer amount parts reason] } := by
    intro t1 hmem ⟨hM1, hS1, hN1, hA1⟩
    have he := shareAll_edges (rnd2 (amount / (parts.length : ℚ))) parts t1.summary
    exact ⟨hM1, SOK_edges_congr hS1 he, (netSum_edges_congr he).trans hN1, hA1⟩
  simp only [expenseClick]
  split_ifs with hg hbr
  · apply hshare (expenseAdv t payer (rnd2 (amount / (parts.length : ℚ))) parts) rfl
    unfold expenseAdv
    have hkeys : ∀ x ∈ (sortByValDesc (mget t.advances payer)).map Prod.fst,
        x ∈ t.members := by
      intro x hx
      rcases List.mem_map.mp hx with ⟨e, he, hxe⟩
      exact hxe ▸ AdvOKL_mget hA payer e
        ((sortByValDesc_perm (mget t.advances payer)).mem_iff.mp he)
    have htrs : ∀ tr ∈ flattenSSM (buildSSM payer (sortByValDesc (mget t.advances payer))
        (rnd2 (amount / (parts.length : ℚ))) parts (mget t.advances payer)).1,
        tr.1 ∈ t.members ∧ tr.2.1 ∈ t.members := by
      intro tr htr
      obtain ⟨h1, h2⟩ := flattenSSM_conds _
        (buildSSM_entries payer (sortByValDesc (mget t.advances payer))
          (rnd2 (amount / (parts.length : ℚ))) parts (mget t.advances payer)) tr htr
      refine ⟨hparts _ h1, ?_⟩
      rcases h2 with h2 | h2 | h2
      · exact hparts _ h2
      · exact hkeys _ h2
      · exact h2 ▸ hpm
    obtain ⟨hS2, hN2⟩ := SOK_attribFold hM hS (mget t.advances payer) payer _ htrs
    refine ⟨hM, hS2, hN2.trans hN, ?_⟩
    apply AdvOKL_mset hA payer
    intro e he
    rcases List.mem_map.mp he with ⟨e0, he0, hee⟩
    exact hee ▸ AdvOKL_mget hA payer e0 he0
  · apply hshare (expenseNoAdv t payer amount parts) rfl
    unfold expenseNoAdv
    have he1 : ∀ m,
        ((updS t.summary payer fun s => { s with own_paid := s.own_paid + rnd2 amount }) m).owes_to =
          (t.summary m).owes_to ∧
        ((updS t.summary payer fun s => { s with own_paid := s.own_paid + rnd2 amount }) m).gets_from =
          (t.summary m).gets_from := by
      intro m
      unfold updS
      by_cases h1 : m = payer <;> simp [h1]
    have hS1 : SOK t.members (updS t.summary payer
        fun s => { s with own_paid := s.own_paid + rnd2 amount }) :=
      SOK_edges_congr hS he1
    have hN1 : netSum t.members (updS t.summary payer
        fun s => { s with own_paid := s.own_paid + rnd2 amount }) = 0 :=
      (netSum_edges_congr he1).trans hN
    split_ifs with hamt
    · have hnn : 0 ≤ rnd2 (amount / (parts.length : ℚ)) := by
        apply rnd2_nonneg
        apply div_nonneg (le_of_lt hamt)
        exact_mod_cast Nat.zero_le parts.length
      have hfold := foldl_invariant
        (fun g => SOK t.members g ∧ netSum t.members g = 0)
        (noAdvStep t.advances payer (rnd2 (amount / (parts.length : ℚ))))
        parts _ (fun p => p ∈ t.members) hparts
        (fun g p hg' hp =>
          let hstep := SOK_noAdvStep hM hg'.1 t.advances payer
            (rnd2 (amount / (parts.length : ℚ))) p hpm hp hnn
          ⟨hstep.1, hstep.2.trans hg'.2⟩)
        ⟨hS1, hN1⟩
      exact ⟨hM, hfold.1, hfold.2, hA⟩
    · exact ⟨hM, hS1, hN1, hA⟩
  · exact ⟨hM, hS, hN, hA⟩

lemma Inv_applyOp (t : Trip) (op : Op) (h : Inv t) : Inv (applyOp t op) := by
  cases op with
  | addMember name => exact Inv_addMemberClick t name h
  | advance src dst amt =>
    simp only [applyOp]
    split_ifs with hg
    · exact Inv_advanceClick t src dst amt h hg.1
    · exact h
  | expense payer amount parts reason =>
    simp only [applyOp]
    split_ifs with hg
    · exact Inv_expenseClick t payer amount parts reason h hg.1 hg.2.1
    · exact h
  | settle src dst amt note =>
    simp only [applyOp]
    split_ifs with hg
    · exact Inv_settleClick t src dst amt note h hg.1 hg.2.1 hg.2.2.1 hg.2.2.2.2.2
    · exact h

lemma Inv_applyOps (ops : List Op) : Inv (applyOps initTrip ops) := by
  unfold applyOps
  have := foldl_invariant Inv applyOp ops initTrip (fun _ => True)
    (fun _ _ => trivial) (fun t op ht _ => Inv_applyOp t op ht) Inv_initTrip
  exact this


/-! Concrete scenarios used by the claims.  Scenario A: Alice advances 300
to Bob, then Bob pays 150 shared by Alice, Bob, Carol.  Scenario B: Dave
pays 90 for Dave and Eve with no advances. -/

def opsA : List Op :=
  [Op.addMember "Alice", Op.addMember "Bob", Op.addMember "Carol",
    Op.advance "Alice" "Bob" 300,
    Op.expense "Bob" 150 ["Alice", "Bob", "Carol"] "dinner"]

def tripA : Trip := applyOps initTrip opsA

/-- The state after the first four operations of scenario A. -/
def advStateA : Trip :=
  { initTrip with
    members := ["Alice", "Bob", "Carol"],
    advances := [("Bob", [("Alice", 300)])],
    summary :=
      updS (updS initTrip.summary "Alice" fun s =>
          { s with advance_given := s.advance_given + 300,
                   advance_balance := s.advance_balance + 300 })
        "Bob" (fun s => { s with advance_received := s.advance_received + 300 }),
    transactions := [LogEntry.advance "Alice" "Bob" 300] }

lemma tripA_eq :
    tripA = expenseClick advStateA "Bob" 150 ["Alice", "Bob", "Carol"] "dinner" := by
  show applyOp (applyOp (applyOp (applyOp (applyOp initTrip (Op.addMember "Alice"))
    (Op.addMember "Bob")) (Op.addMember "Carol")) (Op.advance "Alice" "Bob" 300))
    (Op.expense "Bob" 150 ["Alice", "Bob", "Carol"] "dinner") = _
  have h4 : applyOp (applyOp (applyOp (applyOp initTrip (Op.addMember "Alice"))
      (Op.addMember "Bob")) (Op.addMember "Carol")) (Op.advance "Alice" "Bob" 300) =
      advStateA := by
    simp [applyOp, addMemberClick, advanceClick, initTrip, advStateA, madd, alAdd,
      String.reduceEq]
  rw [h4]
  have hguard : "Bob" ∈ advStateA.members ∧
      (∀ p ∈ ["Alice", "Bob", "Carol"], p ∈ advStateA.members) ∧
      (["Alice", "Bob", "Carol"] : List String).Nodup := by
    simp [advStateA, String.reduceEq]
  simp only [applyOp, if_pos hguard]

lemma tripA_alice : tripA.summary "Alice" = { advance_given := 300, advance_used_by_others := 100, advance_balance := 200, share := 50, gets_from := [("Bob", 50), ("Carol", 50)] } := by
  rw [tripA_eq]
  simp only [expenseClick, expenseAdv, expenseNoAdv, noAdvStep, shareAll, updS, addEdge,
    alAdd, alGet, buildSSM, buildStep, drawForPerson, drawContribStep, sortByValDesc,
    insDesc, flattenSSM, mappendSrcs, attribOne, mset, mmem, mget, alMem, advStateA,
    initTrip, emptySummary, String.reduceEq, List.foldl,
    List.cons_ne_nil, ne_eq, not_false_iff, if_true, if_false, ite_true, ite_false,
    Bool.or_eq_true, decide_eq_true_eq, false_or, or_false, not_false_eq_true,
    and_true, true_and]
  norm_num [rnd2, roundHalfEven, min_def]
  repeat (first
    | rfl
    | (simp [updS, addEdge, alAdd, alGet, alMem, attribOne, mappendSrcs, flattenSSM,
        mset, mget, mmem, List.foldl, String.reduceEq, emptySummary]
       try norm_num [min_def]))

lemma tripA_bob : tripA.summary "Bob" = { advance_received := 300, advance_used_from_others := 50, share := 50, owes_to := [("Alice", 50)] } := by
  rw [tripA_eq]
  simp only [expenseClick, expenseAdv, expenseNoAdv, noAdvStep, shareAll, updS, addEdge,
    alAdd, alGet, buildSSM, buildStep, drawForPerson, drawContribStep, sortByValDesc,
    insDesc, flattenSSM, mappendSrcs, attribOne, mset, mmem, mget, alMem, advStateA,
    initTrip, emptySummary, String.reduceEq, List.foldl,
    List.cons_ne_nil, ne_eq, not_false_iff, if_true, if_false, ite_true, ite_false,
    Bool.or_eq_true, decide_eq_true_eq, false_or, or_false, not_false_eq_true,
    and_true, true_and]
  norm_num [rnd2, roundHalfEven, min_def]
  repeat (first
    | rfl
    | (simp [updS, addEdge, alAdd, alGet, alMem, attribOne, mappendSrcs, flattenSSM,
        mset, mget, mmem, List.foldl, String.reduceEq, emptySummary]
       try norm_num [min_def]))

lemma tripA_carol : tripA.summary "Carol" = { advance_used_from_others := 50, share := 50, owes_to := [("Alice", 50)] } := by
  rw [tripA_eq]
  simp only [expenseClick, expenseAdv, expenseNoAdv, noAdvStep, shareAll, updS, addEdge,
    alAdd, alGet, buildSSM, buildStep, drawForPerson, drawContribStep, sortByValDesc,
    insDesc, flattenSSM, mappendSrcs, attribOne, mset, mmem, mget, alMem, advStateA,
    initTrip, emptySummary, String.reduceEq, List.foldl,
    List.cons_ne_nil, ne_eq, not_false_iff, if_true, if_false, ite_true, ite_false,
    Bool.or_eq_true, decide_eq_true_eq, false_or, or_false, not_false_eq_true,
    and_true, true_and]
  norm_num [rnd2, roundHalfEven, min_def]
  repeat (first
    | rfl
    | (simp [updS, addEdge, alAdd, alGet, alMem, attribOne, mappendSrcs, flattenSSM,
        mset, mget, mmem, List.foldl, String.reduceEq, emptySummary]
       try norm_num [min_def]))

lemma tripA_pool : tripA.advances = [("Bob", [("Alice", 150)])] := by
  rw [tripA_eq]
  simp only [expenseClick, expenseAdv, expenseNoAdv, noAdvStep, shareAll, updS, addEdge,
    alAdd, alGet, buildSSM, buildStep, drawForPerson, drawContribStep, sortByValDesc,
    insDesc, flattenSSM, mappendSrcs, attribOne, mset, mmem, mget, alMem, advStateA,
    initTrip, emptySummary, String.reduceEq, List.foldl,
    List.cons_ne_nil, ne_eq, not_false_iff, if_true, if_false, ite_true, ite_false,
    Bool.or_eq_true, decide_eq_true_eq, false_or, or_false, not_false_eq_true,
    and_true, true_and]
  norm_num [rnd2, roundHalfEven, min_def]
  repeat (first
    | rfl
    | (simp [updS, addEdge, alAdd, alGet, alMem, attribOne, mappendSrcs, flattenSSM,
        mset, mget, mmem, List.foldl, String.reduceEq, emptySummary]
       try norm_num [min_def]))

lemma ssmA : (buildSSM "Bob" [("Alice", (300:ℚ))] 50 ["Alice", "Bob", "Carol"]
    [("Alice", 300)]).1 =
    [("Alice", [("Alice", 50)]), ("Bob", [("Alice", 50)]), ("Carol", [("Alice", 50)])] := by
  simp only [buildSSM, buildStep, drawForPerson, drawContribStep, mappendSrcs,
    alAdd, alGet, alMem, List.foldl, String.reduceEq,
    Bool.or_eq_true, decide_eq_true_eq, false_or, or_false]
  norm_num [min_def]
  repeat (first
    | rfl
    | (simp [mappendSrcs, alAdd, alGet, alMem, List.foldl, String.reduceEq]
       norm_num [min_def]))

def opsB : List Op :=
  [Op.addMember "Dave", Op.addMember "Eve",
    Op.expense "Dave" 90 ["Dave", "Eve"] "lunch"]

def tripB : Trip := applyOps initTrip opsB

lemma tripB_eq :
    tripB = expenseClick { initTrip with members := ["Dave", "Eve"] } "Dave" 90
      ["Dave", "Eve"] "lunch" := by
  show applyOp (applyOp (applyOp initTrip (Op.addMember "Dave")) (Op.addMember "Eve"))
    (Op.expense "Dave" 90 ["Dave", "Eve"] "lunch") = _
  have h2 : applyOp (applyOp initTrip (Op.addMember "Dave")) (Op.addMember "Eve") =
      { initTrip with members := ["Dave", "Eve"] } := by
    simp [applyOp, addMemberClick, initTrip, String.reduceEq]
  rw [h2]
  have hguard : "Dave" ∈ ({ initTrip with members := ["Dave", "Eve"] } : Trip).members ∧
      (∀ p ∈ ["Dave", "Eve"], p ∈ ({ initTrip with members := ["Dave", "Eve"] } : Trip).members) ∧
      (["Dave", "Eve"] : List String).Nodup := by
    simp [initTrip, String.reduceEq]
  simp only [applyOp, if_pos hguard]

lemma tripB_eve : tripB.summary "Eve" = { share := 45, owes_to := [("Dave", 45)] } := by
  rw [tripB_eq]
  simp only [expenseClick, expenseNoAdv, noAdvStep, shareAll, updS, addEdge, alAdd,
    mmem, mget, alMem, initTrip, emptySummary, String.reduceEq, List.foldl,
    List.cons_ne_nil, ne_eq, not_false_iff, if_true, if_false, ite_true, ite_false,
    Bool.or_eq_true, decide_eq_true_eq, false_or, or_false, not_false_eq_true,
    and_true, true_and]
  norm_num [rnd2, roundHalfEven]
  simp [updS, alAdd, String.reduceEq, emptySummary]

lemma tripB_dave : tripB.summary "Dave" = { own_paid := 90, share := 45, gets_from := [("Eve", 45)] } := by
  rw [tripB_eq]
  simp only [expenseClick, expenseNoAdv, noAdvStep, shareAll, updS, addEdge, alAdd,
    mmem, mget, alMem, initTrip, emptySummary, String.reduceEq, List.foldl,
    List.cons_ne_nil, ne_eq, not_false_iff, if_true, if_false, ite_true, ite_false,
    Bool.or_eq_true, decide_eq_true_eq, false_or, or_false, not_false_eq_true,
    and_true, true_and]
  norm_num [rnd2, roundHalfEven]
  simp [updS, alAdd, String.reduceEq, emptySummary]

lemma tripB_settlements : tripB.settlements = [] := by
  rw [tripB_eq]
  simp [expenseClick, expenseNoAdv, mmem, initTrip]

lemma tripB_eve_owesDave : alGet (tripB.summary "Eve").owes_to "Dave" = 45 := by
  rw [tripB_eve]
  simp [alGet]

lemma tripB_eve_keys : ((tripB.summary "Eve").owes_to.map Prod.fst).Nodup := by
  rw [tripB_eve]
  simp

lemma tripB_eve_mem : ("Dave", (45:ℚ)) ∈ (tripB.summary "Eve").owes_to := by
  rw [tripB_eve]
  simp

/-- Generic clamping behaviour of the settle handler, shared by the C3
theorems: when the requested amount is at least the outstanding
obligation, the payment is clamped to the outstanding amount and the
paid-off owes edge is removed. -/
lemma settle_clamps_core (t : Trip) (src dst : String) (amt : ℚ) (note : String)
    (hne : src ≠ dst)
    (hnd : ((t.summary src).owes_to.map Prod.fst).Nodup)
    (hle : alGet (t.summary src).owes_to dst ≤ amt) :
    (settleClick t src dst amt note).settlements =
      t.settlements ++ [⟨src, dst, alGet (t.summary src).owes_to dst, note⟩] ∧
    alMem ((settleClick t src dst amt note).summary src).owes_to dst = false := by
  have hpay : min amt (alGet (t.summary src).owes_to dst) =
      alGet (t.summary src).owes_to dst := min_eq_right hle
  constructor
  · simp [settleClick, hpay]
  · simp only [settleClick, hpay]
    have howes2 : ((addEdge t.summary src dst (-(alGet (t.summary src).owes_to dst))) src).owes_to =
        alAdd (t.summary src).owes_to dst (-(alGet (t.summary src).owes_to dst)) := by
      rw [addEdge_owes, if_pos rfl]
    have hcond2 : alGet ((addEdge t.summary src dst
        (-(alGet (t.summary src).owes_to dst))) src).owes_to dst ≤ 0 := by
      rw [howes2, alGet_alAdd, if_pos rfl]
      simp
    rw [if_pos hcond2]
    have hkeys : (((addEdge t.summary src dst
        (-(alGet (t.summary src).owes_to dst))) src).owes_to.map Prod.fst).Nodup := by
      rw [howes2]
      exact keysNodup_alAdd _ _ _ hnd
    have hfin : alMem (alErase ((addEdge t.summary src dst
        (-(alGet (t.summary src).owes_to dst))) src).owes_to dst) dst = false :=
      alMem_alErase_self _ _ hkeys
    by_cases hcond3 : alGet ((updS (addEdge t.summary src dst
        (-(alGet (t.summary src).owes_to dst))) src fun s =>
          { s with owes_to := alErase s.owes_to dst }) dst).gets_from src ≤ 0
    · rw [if_pos hcond3]
      have hs : ((updS (updS (addEdge t.summary src dst
          (-(alGet (t.summary src).owes_to dst))) src fun s =>
            { s with owes_to := alErase s.owes_to dst }) dst fun s =>
            { s with gets_from := alErase s.gets_from src }) src).owes_to =
          alErase ((addEdge t.summary src dst
            (-(alGet (t.summary src).owes_to dst))) src).owes_to dst := by
        simp [updS, hne]
      rw [hs]
      exact hfin
    · rw [if_neg hcond3]
      have hs : ((updS (addEdge t.summary src dst
          (-(alGet (t.summary src).owes_to dst))) src fun s =>
            { s with owes_to := alErase s.owes_to dst }) src).owes_to =
          alErase ((addEdge t.summary src dst
            (-(alGet (t.summary src).owes_to dst))) src).owes_to dst := by
        simp [updS]
      rw [hs]
      exact hfin

def opsC8 : List Op :=
  [Op.addMember "D", Op.addMember "E", Op.addMember "F",
    Op.expense "D" (1 / 100) ["D", "E", "F"] "snack"]

def tripC8 : Trip := applyOps initTrip opsC8

lemma tripC8_e : (tripC8.summary "E").owes_to = [("D", 0)] := by
  show ((applyOp (applyOp (applyOp (applyOp initTrip (Op.addMember "D"))
    (Op.addMember "E")) (Op.addMember "F"))
    (Op.expense "D" (1 / 100) ["D", "E", "F"] "snack")).summary "E").owes_to = _
  have h3 : applyOp (applyOp (applyOp initTrip (Op.addMember "D")) (Op.addMember "E"))
      (Op.addMember "F") = { initTrip with members := ["D", "E", "F"] } := by
    simp [applyOp, addMemberClick, initTrip, String.reduceEq]
  rw [h3]
  have hguard : "D" ∈ ({ initTrip with members := ["D", "E", "F"] } : Trip).members ∧
      (∀ p ∈ ["D", "E", "F"], p ∈ ({ initTrip with members := ["D", "E", "F"] } : Trip).members) ∧
      (["D", "E", "F"] : List String).Nodup := by
    simp [initTrip, String.reduceEq]
  simp only [applyOp, if_pos hguard]
  simp only [expenseClick, expenseNoAdv, noAdvStep, shareAll, updS, addEdge, alAdd,
    mmem, mget, alMem, initTrip, emptySummary, String.reduceEq, List.foldl,
    List.cons_ne_nil, ne_eq, not_false_iff, if_true, if_false, ite_true, ite_false,
    Bool.or_eq_true, decide_eq_true_eq, false_or, or_false, not_false_eq_true,
    and_true, true_and]
  norm_num [rnd2, roundHalfEven]
  simp [updS, alAdd, String.reduceEq, emptySummary]

/-! ### Allocation completeness machinery -/

/-- Total amount of a source list. -/
def sumSrcs (l : List (String × ℚ)) : ℚ := (l.map Prod.snd).sum

/-- The contributor loop keeps `sources total + share remaining` constant
and never drives the remaining share negative. -/
lemma drawContribFold_sum (person : String) (contribs : List (String × ℚ))
    (st : List (String × ℚ) × ℚ × List (String × ℚ)) :
    sumSrcs (contribs.foldl (drawContribStep person) st).1 +
      (contribs.foldl (drawContribStep person) st).2.1 = sumSrcs st.1 + st.2.1 ∧
    (0 ≤ st.2.1 → 0 ≤ (contribs.foldl (drawContribStep person) st).2.1) := by
  induction contribs generalizing st with
  | nil => exact ⟨rfl, fun h => h⟩
  | cons c cs ih =>
    simp only [List.foldl_cons]
    rcases ih (drawContribStep person st c) with ⟨h1, h2⟩
    have hstep : sumSrcs (drawContribStep person st c).1 +
        (drawContribStep person st c).2.1 = sumSrcs st.1 + st.2.1 ∧
        (0 ≤ st.2.1 → 0 ≤ (drawContribStep person st c).2.1) := by
      simp only [drawContribStep]
      split_ifs with hc hz
      · exact ⟨rfl, fun h => h⟩
      · exact ⟨rfl, fun h => h⟩
      · constructor
        · simp only [sumSrcs, List.map_append, List.sum_append, List.map_cons,
            List.sum_cons, List.map_nil, List.sum_nil]
          ring
        · intro h
          have hmin : min st.2.1 (alGet st.2.2 c.1) ≤ st.2.1 := min_le_left _ _
          simp only
          linarith
    exact ⟨h1.trans hstep.1, fun h => h2 (hstep.2 h)⟩

/-- The per-participant allocator hands out exactly the per-head share:
own advance, other contributors and payer remainder sum to `perHead`. -/
lemma drawForPerson_sum (payer : String) (contribs : List (String × ℚ))
    (perHead : ℚ) (adv : List (String × ℚ)) (person : String)
    (hper : 0 ≤ perHead) :
    sumSrcs (drawForPerson payer contribs perHead adv person).1 = perHead := by
  have key : ∀ st : List (String × ℚ) × ℚ × List (String × ℚ),
      sumSrcs st.1 + st.2.1 = perHead → 0 ≤ st.2.1 →
      sumSrcs (if 0 < (contribs.foldl (drawContribStep person) st).2.1 then
          ((contribs.foldl (drawContribStep person) st).1 ++
            [(payer, (contribs.foldl (drawContribStep person) st).2.1)],
            (contribs.foldl (drawContribStep person) st).2.2)
        else ((contribs.foldl (drawContribStep person) st).1,
            (contribs.foldl (drawContribStep person) st).2.2)).1 = perHead := by
    intro st hsum hpos
    rcases drawContribFold_sum person contribs st with ⟨h1, h2⟩
    by_cases hr : 0 < (contribs.foldl (drawContribStep person) st).2.1
    · rw [if_pos hr]
      simp only [sumSrcs, List.map_append, List.sum_append, List.map_cons,
        List.sum_cons, List.map_nil, List.sum_nil] at h1 hsum ⊢
      linarith
    · rw [if_neg hr]
      have hr0 : (contribs.foldl (drawContribStep person) st).2.1 = 0 :=
        le_antisymm (not_lt.mp hr) (h2 hpos)
      rw [hr0, add_zero] at h1
      rw [h1, hsum]
  simp only [drawForPerson]
  by_cases hown : alMem adv person = true ∧ 0 < alGet adv person
  · rw [if_pos hown]
    apply key
    · simp only [sumSrcs, List.map_cons, List.sum_cons, List.map_nil, List.sum_nil]
      ring
    · have hmin : min perHead (alGet adv person) ≤ perHead := min_le_left _ _
      simp only
      linarith
  · rw [if_neg hown]
    exact key ([], perHead, adv) (by simp [sumSrcs]) hper

lemma mget_eq_nil_of_not_mmem (m : List (String × List (String × ℚ)))
    (k : String) (h : mmem m k = false) : mget m k = [] := by
  induction m with
  | nil => rfl
  | cons e es ih =>
    simp only [mmem, Bool.or_eq_false_iff, decide_eq_false_iff_not] at h
    rw [mget, if_neg h.1]
    exact ih h.2

lemma mget_mappendSrcs_self (m : List (String × List (String × ℚ)))
    (k : String) (srcs : List (String × ℚ)) (h : mmem m k = false) :
    mget (mappendSrcs m k srcs) k = srcs := by
  induction m with
  | nil => simp [mappendSrcs, mget]
  | cons e es ih =>
    simp only [mmem, Bool.or_eq_false_iff, decide_eq_false_iff_not] at h
    rw [mappendSrcs, if_neg h.1, mget, if_neg h.1]
    exact ih h.2

lemma mget_mappendSrcs_ne (m : List (String × List (String × ℚ)))
    (k x : String) (srcs : List (String × ℚ)) (hx : x ≠ k) :
    mget (mappendSrcs m k srcs) x = mget m x := by
  induction m with
  | nil => simp [mappendSrcs, mget, Ne.symm hx]
  | cons e es ih =>
    by_cases he : e.1 = k
    · rw [mappendSrcs, if_pos he, mget, mget]
      have hex : ¬ e.1 = x := fun hc => hx ((hc.symm.trans he))
      rw [if_neg hex, if_neg hex]
    · rw [mappendSrcs, if_neg he, mget, mget]
      by_cases hex : e.1 = x
      · rw [if_pos hex, if_pos hex]
      · rw [if_neg hex, if_neg hex]
        exact ih

lemma mmem_mappendSrcs_ne (m : List (String × List (String × ℚ)))
    (k x : String) (srcs : List (String × ℚ)) (hx : x ≠ k) :
    mmem (mappendSrcs m k srcs) x = mmem m x := by
  induction m with
  | nil => simp [mappendSrcs, mmem, Ne.symm hx]
  | cons e es ih =>
    by_cases he : e.1 = k
    · rw [mappendSrcs, if_pos he, mmem, mmem]
    · rw [mappendSrcs, if_neg he, mmem, mmem, ih]

/-- A person not among the remaining participants keeps their
`share_source_map` entry untouched by the rest of the fold. -/
lemma buildFold_lookup_frozen (payer : String) (contribs : List (String × ℚ))
    (perHead : ℚ) (p : String) (parts : List String)
    (st : List (String × List (String × ℚ)) × List (String × ℚ))
    (hp : p ∉ parts) :
    mget (parts.foldl (buildStep payer contribs perHead) st).1 p = mget st.1 p := by
  induction parts generalizing st with
  | nil => rfl
  | cons q qs ih =>
    simp only [List.mem_cons, not_or] at hp
    simp only [List.foldl_cons]
    rw [ih _ hp.2]
    simp only [buildStep]
    split_ifs
    · rfl
    · exact mget_mappendSrcs_ne _ _ _ _ hp.1

/-- Under a duplicate-free participant list, every participant's entry of
the finished `share_source_map` sums to the per-head share. -/
lemma buildFold_lookup_sum (payer : String) (contribs : List (String × ℚ))
    (perHead : ℚ) (hper : 0 ≤ perHead) (p : String) :
    ∀ (parts : List String) (st : List (String × List (String × ℚ)) × List (String × ℚ)),
      parts.Nodup → p ∈ parts → mmem st.1 p = false →
      sumSrcs (mget (parts.foldl (buildStep payer contribs perHead) st).1 p) = perHead := by
  intro parts
  induction parts with
  | nil => intro st _ hp _; exact absurd hp (List.not_mem_nil _)
  | cons q qs ih =>
    intro st hnd hp hmm
    simp only [List.foldl_cons]
    rcases List.nodup_cons.mp hnd with ⟨hqn, hqs⟩
    by_cases hq : q = p
    · subst hq
      rw [buildFold_lookup_frozen payer contribs perHead q qs
        (buildStep payer contribs perHead st q) hqn]
      simp only [buildStep]
      by_cases hempty : (drawForPerson payer contribs perHead st.2 q).1.isEmpty = true
      · rw [if_pos hempty]
        have hnil := mget_eq_nil_of_not_mmem st.1 q hmm
        have hsum := drawForPerson_sum payer contribs perHead st.2 q hper
        rw [List.isEmpty_iff.mp hempty] at hsum
        rw [hnil]
        exact hsum
      · rw [if_neg hempty]
        rw [mget_mappendSrcs_self st.1 q _ hmm]
        exact drawForPerson_sum payer contribs perHead st.2 q hper
    · have hp' : p ∈ qs := by
        rcases List.mem_cons.mp hp with h | h
        · exact absurd h.symm hq
        · exact h
      apply ih _ hqs hp'
      simp only [buildStep]
      split_ifs
      · exact hmm
      · rw [mmem_mappendSrcs_ne st.1 q p _ (Ne.symm hq)]
        exact hmm

/-- Every participant's entry of `share_source_map` sums to the per-head
share. -/
lemma buildSSM_sum (payer : String) (contribs : List (String × ℚ))
    (perHead : ℚ) (parts : List String) (adv0 : List (String × ℚ)) (p : String)
    (hper : 0 ≤ perHead) (hnd : parts.Nodup) (hp : p ∈ parts) :
    sumSrcs (mget (buildSSM payer contribs perHead parts adv0).1 p) = perHead :=
  buildFold_lookup_sum payer contribs perHead hper p parts ([], adv0) hnd hp rfl

/-! ### The re-sorting allocator described by the spec wording of C9 -/

/-- Modelled from the claim wording (C9), not from the source: the
contributor pass for each participant re-sorts the contributors by their
remaining amounts at the moment of that participant's draw-down. -/
def drawForPersonResorted (payer : String) (perHead : ℚ)
    (adv : List (String × ℚ)) (person : String) :
    List (String × ℚ) × List (String × ℚ) :=
  let step1 : List (String × ℚ) × ℚ × List (String × ℚ) :=
    if alMem adv person ∧ 0 < alGet adv person then
      let use := min perHead (alGet adv person)
      ([(person, use)], perHead - use, alAdd adv person (-use))
    else ([], perHead, adv)
  let step2 := (sortByValDesc step1.2.2).foldl (drawContribStep person) step1
  if 0 < step2.2.1 then (step2.1 ++ [(payer, step2.2.1)], step2.2.2)
  else (step2.1, step2.2.2)

/-- Modelled from the claim wording (C9): one participant of the
re-sorting allocator. -/
def buildStepResorted (payer : String) (perHead : ℚ)
    (acc : List (String × List (String × ℚ)) × List (String × ℚ))
    (person : String) :
    List (String × List (String × ℚ)) × List (String × ℚ) :=
  let res := drawForPersonResorted payer perHead acc.2 person
  (if res.1.isEmpty then acc.1 else mappendSrcs acc.1 person res.1, res.2)

/-- Modelled from the claim wording (C9): the whole re-sorting
`share_source_map` construction. -/
def buildSSMResorted (payer : String) (perHead : ℚ)
    (participants : List String) (adv0 : List (String × ℚ)) :
    List (String × List (String × ℚ)) × List (String × ℚ) :=
  participants.foldl (buildStepResorted payer perHead) ([], adv0)

/-! ### Nested-map update lemmas for the advance handler -/

lemma mget_madd_self (m : List (String × List (String × ℚ)))
    (dst src : String) (amt : ℚ) :
    mget (madd m dst src amt) dst = alAdd (mget m dst) src amt := by
  induction m with
  | nil => simp [madd, mget]
  | cons e es ih =>
    by_cases he : e.1 = dst
    · rw [madd, if_pos he, mget, if_pos he, mget, if_pos he]
    · rw [madd, if_neg he, mget, if_neg he, mget, if_neg he]
      exact ih

lemma mmem_madd_self (m : List (String × List (String × ℚ)))
    (dst src : String) (amt : ℚ) :
    mmem (madd m dst src amt) dst = true := by
  induction m with
  | nil => simp [madd, mmem]
  | cons e es ih =>
    by_cases he : e.1 = dst
    · rw [madd, if_pos he, mmem]
      simp [he]
    · rw [madd, if_neg he, mmem, ih]
      simp

def tripAl : Trip := applyOps initTrip [Op.addMember "Alice"]

lemma tripAl_eq : tripAl = { initTrip with members := ["Alice"] } := by
  show applyOp initTrip (Op.addMember "Alice") = _
  simp [applyOp, addMemberClick, initTrip]

def tripFG : Trip := applyOps initTrip [Op.addMember "F", Op.addMember "G"]

lemma tripFG_eq : tripFG = { initTrip with members := ["F", "G"] } := by
  show applyOp (applyOp initTrip (Op.addMember "F")) (Op.addMember "G") = _
  simp [applyOp, addMemberClick, initTrip, String.reduceEq]

/-! ### The claims -/

/-- C1 (counterexample to the claim as stated): in scenario A the code
gives Alice advance_used_by_others = 100 (not 50), advance_balance = 200
(not 250) and pool entry advances[Bob][Alice] = 150 (not 200): the payer
Bob's own share is also drawn from Alice's advance, because the own-advance
step only checks whether the PARTICIPANT holds an entry in the payer's
pool, and Bob does not, so his 50 falls through to the contributor loop. -/
theorem scenario_a_counterexample :
    (tripA.summary "Alice").advance_used_by_others = 100 ∧
    (tripA.summary "Alice").advance_balance = 200 ∧
    alGet (mget tripA.advances "Bob") "Alice" = 150 ∧
    ¬((tripA.summary "Alice").advance_used_by_others = 50 ∧
      (tripA.summary "Alice").advance_balance = 250 ∧
      alGet (mget tripA.advances "Bob") "Alice" = 200) := by
  rw [tripA_alice, tripA_pool]
  refine ⟨rfl, rfl, ?_, ?_⟩
  · simp [mget, alGet]
  · intro hc
    have h := hc.1
    norm_num at h

/-- C1 (amended): in scenario A every participant's share of 50 — Bob's
included — is drawn from Alice's advance, so Alice's
advance_used_by_others becomes 100, her advance_balance 200, the pool
entry advances[Bob][Alice] 150, and Bob and Carol each owe Alice 50. -/
theorem scenario_a_amended :
    (buildSSM "Bob" [("Alice", (300:ℚ))] 50 ["Alice", "Bob", "Carol"] [("Alice", 300)]).1 =
      [("Alice", [("Alice", 50)]), ("Bob", [("Alice", 50)]), ("Carol", [("Alice", 50)])] ∧
    tripA.summary "Alice" = { advance_given := 300, advance_used_by_others := 100, advance_balance := 200, share := 50, gets_from := [("Bob", 50), ("Carol", 50)] } ∧
    tripA.summary "Bob" = { advance_received := 300, advance_used_from_others := 50, share := 50, owes_to := [("Alice", 50)] } ∧
    tripA.summary "Carol" = { advance_used_from_others := 50, share := 50, owes_to := [("Alice", 50)] } ∧
    tripA.advances = [("Bob", [("Alice", 150)])] :=
  ⟨ssmA, tripA_alice, tripA_bob, tripA_carol, tripA_pool⟩

/-- C2 (counterexample to the claim as stated): in scenario B Dave's
own_paid increases by the full rounded amount 90 (line 164), not by his
own half 45. -/
theorem scenario_b_counterexample :
    (tripB.summary "Dave").own_paid = 90 ∧ (tripB.summary "Dave").own_paid ≠ 45 := by
  rw [tripB_dave]
  refine ⟨rfl, ?_⟩
  norm_num

/-- C2 (amended): in scenario B Eve's owes_to[Dave] and Dave's
gets_from[Eve] both become 45 and both shares grow by 45, but Dave's
own_paid grows by the whole 90. -/
theorem scenario_b_amended :
    tripB.summary "Eve" = { share := 45, owes_to := [("Dave", 45)] } ∧
    tripB.summary "Dave" = { own_paid := 90, share := 45, gets_from := [("Eve", 45)] } :=
  ⟨tripB_eve, tripB_dave⟩

/-- C3 (counterexample to the claim as stated): settling 50 against an
outstanding 45 does not fail and does not leave the state unchanged: the
payment is silently clamped to 45 (line 220), a settlement record for 45
is appended, and the paid-off edge is removed. -/
theorem settle_overpayment_counterexample :
    alGet (tripB.summary "Eve").owes_to "Dave" = 45 ∧ ((45:ℚ) < 50) ∧
    (settleClick tripB "Eve" "Dave" 50 "x").settlements = [⟨"Eve", "Dave", 45, "x"⟩] ∧
    tripB.settlements = [] ∧
    alMem ((settleClick tripB "Eve" "Dave" 50 "x").summary "Eve").owes_to "Dave" = false := by
  refine ⟨tripB_eve_owesDave, by norm_num, ?_, tripB_settlements, ?_⟩
  · simp only [settleClick, tripB_eve, tripB_settlements]
    norm_num [alGet, min_def]
  · exact (settle_clamps_core tripB "Eve" "Dave" 50 "x" (by decide) tripB_eve_keys
      (tripB_eve_owesDave.trans_le (by norm_num))).2

/-- C3 (amended): the settle handler never rejects an overpayment: for any
amount at least the outstanding obligation it clamps the payment to the
outstanding amount (`pay_amt = min(settle_amt, owed_amt)`, line 220),
appends a settlement record for the clamped amount, and removes the
paid-off edge — there is no OverpaymentError and the state does change. -/
theorem settle_clamps (t : Trip) (src dst : String) (amt : ℚ) (note : String)
    (hne : src ≠ dst)
    (hnd : ((t.summary src).owes_to.map Prod.fst).Nodup)
    (hle : alGet (t.summary src).owes_to dst ≤ amt) :
    (settleClick t src dst amt note).settlements =
      t.settlements ++ [⟨src, dst, alGet (t.summary src).owes_to dst, note⟩] ∧
    alMem ((settleClick t src dst amt note).summary src).owes_to dst = false :=
  settle_clamps_core t src dst amt note hne hnd hle

/-- Witness for C3 (amended) at scenario B with an overpayment of 50
against an outstanding 45. -/
theorem settle_clamps_witness :
    ("Eve" : String) ≠ "Dave" ∧
    ((tripB.summary "Eve").owes_to.map Prod.fst).Nodup ∧
    alGet (tripB.summary "Eve").owes_to "Dave" ≤ 50 ∧
    ((settleClick tripB "Eve" "Dave" 50 "w").settlements =
      tripB.settlements ++ [⟨"Eve", "Dave", alGet (tripB.summary "Eve").owes_to "Dave", "w"⟩] ∧
    alMem ((settleClick tripB "Eve" "Dave" 50 "w").summary "Eve").owes_to "Dave" = false) :=
  ⟨by decide, tripB_eve_keys, tripB_eve_owesDave.trans_le (by norm_num),
    settle_clamps tripB "Eve" "Dave" 50 "w" (by decide) tripB_eve_keys
      (tripB_eve_owesDave.trans_le (by norm_num))⟩

/-- C4 (counterexample to the claim as stated): recording an advance of 0
between distinct members F and G does not fail: the handler reports
success, appends a transaction-log entry, and vivifies the pool entry
advances[G], although the state before had no transactions and no pool
entry. -/
theorem advance_zero_counterexample :
    (advanceClick tripFG "F" "G" 0).2 = Outcome.success ∧
    (advanceClick tripFG "F" "G" 0).1.transactions = [LogEntry.advance "F" "G" 0] ∧
    mmem (advanceClick tripFG "F" "G" 0).1.advances "G" = true ∧
    tripFG.transactions = [] ∧ mmem tripFG.advances "G" = false := by
  rw [tripFG_eq]
  unfold advanceClick
  rw [if_pos (show ("F" : String) ≠ "G" by decide)]
  exact ⟨rfl, rfl, mmem_madd_self _ _ _ _, rfl, rfl⟩

/-- C4 (amended): the Add Advance handler validates only `from ≠ to` and
performs no amount validation at all (lines 80-96): for every amount —
zero and negative included — it succeeds, appends a log entry, and bumps
the pool entry advances[to][from] by the amount. -/
theorem advance_no_amount_validation (t : Trip) (src dst : String) (amt : ℚ)
    (hne : src ≠ dst) :
    (advanceClick t src dst amt).2 = Outcome.success ∧
    (advanceClick t src dst amt).1.transactions =
      t.transactions ++ [LogEntry.advance src dst amt] ∧
    mget (advanceClick t src dst amt).1.advances dst =
      alAdd (mget t.advances dst) src amt ∧
    mmem (advanceClick t src dst amt).1.advances dst = true := by
  unfold advanceClick
  rw [if_pos hne]
  exact ⟨rfl, rfl, mget_madd_self t.advances dst src amt,
    mmem_madd_self t.advances dst src amt⟩

/-- Witness for C4 (amended) with a negative amount. -/
theorem advance_no_amount_validation_witness :
    ("F" : String) ≠ "G" ∧
    ((advanceClick tripFG "F" "G" (-5)).2 = Outcome.success ∧
      (advanceClick tripFG "F" "G" (-5)).1.transactions =
        tripFG.transactions ++ [LogEntry.advance "F" "G" (-5)] ∧
      mget (advanceClick tripFG "F" "G" (-5)).1.advances "G" =
        alAdd (mget tripFG.advances "G") "F" (-5) ∧
      mmem (advanceClick tripFG "F" "G" (-5)).1.advances "G" = true) :=
  ⟨by decide, advance_no_amount_validation tripFG "F" "G" (-5) (by decide)⟩

/-- C5 (counterexample to the claim as stated): adding "Alice" to a trip
that already has member "Alice" does not fail with any error: the guard
(line 55) silently skips the append and the handler ends with no
feedback, leaving the state unchanged. -/
theorem duplicate_member_counterexample :
    addMemberClick tripAl "Alice" = (tripAl, Outcome.silent) ∧
    tripAl.members = ["Alice"] := by
  refine ⟨?_, by rw [tripAl_eq]⟩
  unfold addMemberClick
  rw [if_neg]
  intro hc
  exact hc.2 (by rw [tripAl_eq]; exact List.mem_singleton.mpr rfl)

/-- C5 (amended): adding a name already in the member list is a silent
no-op: the guard fails, nothing is appended, and no error of any kind is
raised. -/
theorem addMember_duplicate_silent (t : Trip) (name : String)
    (h : name ∈ t.members) :
    addMemberClick t name = (t, Outcome.silent) := by
  unfold addMemberClick
  rw [if_neg (fun hc => hc.2 h)]

/-- Witness for C5 (amended). -/
theorem addMember_duplicate_silent_witness :
    "Alice" ∈ tripAl.members ∧
    addMemberClick tripAl "Alice" = (tripAl, Outcome.silent) :=
  ⟨by simp [tripAl_eq], addMember_duplicate_silent tripAl "Alice" (by simp [tripAl_eq])⟩

/-- C6: zero-sum — in every state reachable from the fresh trip by any
sequence of operations, the members' net positions (gets_from minus
owes_to, each excluding self-keyed entries) sum to exactly 0, which is
stronger than the claimed 0.01-per-expense tolerance. -/
theorem zero_sum (ops : List Op) : totalNet (applyOps initTrip ops) = 0 :=
  (totalNet_eq_netSum _).trans (Inv_applyOps ops).2.2.1

/-- C7: mirror invariant — in every reachable state and for every pair of
names, an owes_to entry is present exactly when the mirrored gets_from
entry is present, and the two stored amounts are equal. -/
theorem mirror_invariant (ops : List Op) (a b : String) :
    (alMem ((applyOps initTrip ops).summary a).owes_to b = true ↔
      alMem ((applyOps initTrip ops).summary b).gets_from a = true) ∧
    alGet ((applyOps initTrip ops).summary a).owes_to b =
      alGet ((applyOps initTrip ops).summary b).gets_from a :=
  ⟨(Inv_applyOps ops).2.1.mirM a b, (Inv_applyOps ops).2.1.mirV a b⟩

/-- C8 (counterexample to the claim as stated): an expense of 0.01 split
three ways has rounded per-head share 0, and the attribution loop stores
zero-valued edges: E's owes_to keeps a ("D", 0) entry instead of dropping
it (the `amt ≤ 0` skip of line 147 is in the ADVANCE branch only; the
no-advance loop of lines 168-176 appends unconditionally). -/
theorem zero_edge_counterexample :
    (tripC8.summary "E").owes_to = [("D", 0)] ∧
    alMem (tripC8.summary "E").owes_to "D" = true := by
  refine ⟨tripC8_e, ?_⟩
  rw [tripC8_e]
  simp [alMem]

/-- C8 (amended): reachable states never store strictly NEGATIVE edge
amounts — every stored owes_to and gets_from entry is ≥ 0 — but
zero-valued entries can persist when the rounded per-head share is 0. -/
theorem no_negative_edges (ops : List Op) (a : String) (e : String × ℚ)
    (h : e ∈ ((applyOps initTrip ops).summary a).owes_to ∨
      e ∈ ((applyOps initTrip ops).summary a).gets_from) :
    0 ≤ e.2 := by
  rcases h with h | h
  · exact (Inv_applyOps ops).2.1.nnO a e h
  · exact (Inv_applyOps ops).2.1.nnG a e h

/-- Witness for C8 (amended) at scenario B. -/
theorem no_negative_edges_witness :
    (("Dave", (45:ℚ)) ∈ (tripB.summary "Eve").owes_to ∨
      ("Dave", (45:ℚ)) ∈ (tripB.summary "Eve").gets_from) ∧
    (0:ℚ) ≤ 45 :=
  ⟨Or.inl tripB_eve_mem,
    no_negative_edges opsB "Eve" ("Dave", 45) (Or.inl tripB_eve_mem)⟩

/-- C9 (counterexample to the claim as stated): the contributors are
sorted ONCE per expense on the pool amounts at the start (line 114), not
re-sorted before each participant's pass: with pool X=100, Y=80, per-head
share 60 and participants A then B, the code draws B's share as X:40 then
Y:20, while the claimed re-sorting on remaining amounts (Y=80 > X=40
after A's draw) would give Y:60. -/
theorem draw_order_counterexample :
    (buildSSM "P" (sortByValDesc [("X", 100), ("Y", 80)]) 60 ["A", "B"]
        [("X", 100), ("Y", 80)]).1 =
      [("A", [("X", 60)]), ("B", [("X", 40), ("Y", 20)])] ∧
    (buildSSMResorted "P" 60 ["A", "B"] [("X", 100), ("Y", 80)]).1 =
      [("A", [("X", 60)]), ("B", [("Y", 60)])] ∧
    ([("X", (40:ℚ)), ("Y", 20)] : List (String × ℚ)) ≠ [("Y", 60)] := by
  refine ⟨?_, ?_, by simp⟩
  · simp only [buildSSM, buildStep, drawForPerson, drawContribStep, sortByValDesc,
      insDesc, mappendSrcs, alAdd, alGet, alMem, List.foldl, String.reduceEq,
      Bool.or_eq_true, decide_eq_true_eq, false_or, or_false]
    norm_num [min_def]
    repeat (first
      | rfl
      | (simp [mappendSrcs, alAdd, alGet, alMem, List.foldl, String.reduceEq,
          insDesc, sortByValDesc, drawContribStep]
         try norm_num [min_def]))
  · simp only [buildSSMResorted, buildStepResorted, drawForPersonResorted,
      drawContribStep, sortByValDesc, insDesc, mappendSrcs, alAdd, alGet, alMem,
      List.foldl, String.reduceEq, Bool.or_eq_true, decide_eq_true_eq, false_or,
      or_false]
    norm_num [min_def]
    repeat (first
      | rfl
      | (simp [mappendSrcs, alAdd, alGet, alMem, List.foldl, String.reduceEq,
          insDesc, sortByValDesc, drawContribStep, buildStepResorted,
          drawForPersonResorted]
         try norm_num [min_def]))

/-- C9 (amended): the contributor order is fixed once per expense: the
handler sorts the payer's pool by descending INITIAL amount (stable) and
every participant's pass visits that same list; the draws do see balances
reduced by earlier participants (the advance_remaining map is threaded
through the fold), but the visiting order never adapts to them. -/
theorem contributors_sorted_once (t : Trip) (payer : String) (perHead : ℚ)
    (parts : List String) :
    expenseAdv t payer perHead parts =
      { t with
          summary := (flattenSSM (buildSSM payer (sortByValDesc (mget t.advances payer))
              perHead parts (mget t.advances payer)).1).foldl
              (attribOne (mget t.advances payer) payer) t.summary,
          advances := mset t.advances payer ((mget t.advances payer).map fun e =>
              (e.1, alGet (buildSSM payer (sortByValDesc (mget t.advances payer))
                perHead parts (mget t.advances payer)).2 e.1)) } ∧
    (sortByValDesc (mget t.advances payer)).Pairwise (fun a b => b.2 ≤ a.2) ∧
    (sortByValDesc (mget t.advances payer)).Perm (mget t.advances payer) :=
  ⟨rfl, sortByValDesc_sorted _, sortByValDesc_perm _⟩

/-- C10: allocation completeness — for every expense allocation run in the
advance branch, every participant's entry of `share_source_map` (own
advance drawn, other contributors' advances drawn, plus payer remainder)
sums exactly to the rounded per-head share. -/
theorem allocation_complete (payer : String) (amount : ℚ) (parts : List String)
    (pool : List (String × ℚ)) (p : String) (hnd : parts.Nodup)
    (hamt : 0 ≤ amount) (hp : p ∈ parts) :
    sumSrcs (mget (buildSSM payer (sortByValDesc pool)
        (rnd2 (amount / (parts.length : ℚ))) parts pool).1 p) =
      rnd2 (amount / (parts.length : ℚ)) :=
  buildSSM_sum payer (sortByValDesc pool) (rnd2 (amount / (parts.length : ℚ)))
    parts pool p
    (rnd2_nonneg _ (div_nonneg hamt (Nat.cast_nonneg _))) hnd hp

/-- Witness for C10 at scenario A's expense. -/
theorem allocation_complete_witness :
    (["Alice", "Bob", "Carol"] : List String).Nodup ∧ (0:ℚ) ≤ 150 ∧
    "Bob" ∈ ["Alice", "Bob", "Carol"] ∧
    sumSrcs (mget (buildSSM "Bob" (sortByValDesc [("Alice", 300)])
        (rnd2 (150 / ((["Alice", "Bob", "Carol"] : List String).length : ℚ)))
        ["Alice", "Bob", "Carol"] [("Alice", 300)]).1 "Bob") =
      rnd2 (150 / ((["Alice", "Bob", "Carol"] : List String).length : ℚ)) :=
  ⟨by decide, by simp, by decide,
    allocation_complete "Bob" 150 ["Alice", "Bob", "Carol"] [("Alice", 300)] "Bob"
      (by decide) (by simp) (by decide)⟩

end TripApp
